import Mathlib

set_option maxRecDepth 100000

/-!
Verification of the FraudShield decision & explanation engine.

This file gives a shallow embedding, in Lean 4, of the core of the
FraudShield repository and proves the specification claims about it:

* `src/api/decision_engine.py` — the rule layer (`_apply_decision_rules`,
  `make_decision`), embedded over exact rationals for the two scores.
* `src/api/audit_logger.py` — `log_decision`, with the feature hash
  (SHA-256 of the comma-joined stringified feature values) implemented
  bit-faithfully over `Nat` arithmetic mod 2^32.
* `src/rag/explainer.py` — `_code_to_query`, `_scrub_pii` (the three
  `re.sub` passes are embedded as executable leftmost/greedy matchers
  over `List Char` with Python's word-boundary semantics),
  `_extract_relevant_sentences`, and `explain_decision` (the embedding
  model and FAISS index are out-of-scope oracles, modelled as a
  deterministic `search` function supplied as an argument).
* `src/rag/build_index.py` — `chunk_text`.

Character classes follow Python's `re` on ASCII text: `\w` is
letters, digits and underscore; `\d` is the decimal digits; `\s` is
the ASCII whitespace characters; `\b` holds between a word and a
non-word character (or at an end of the string next to a word
character).
-/

/-! ### Rule layer: `src/api/decision_engine.py` -/

/-- Decision categories returned by the rule layer. -/
inductive Category where
  | ALLOW
  | SOFT_BLOCK
  | HARD_BLOCK
deriving DecidableEq, Repr

/-- Embedding of `_apply_decision_rules` (decision_engine.py lines 113–170).
Scores are exact rationals; `is_qr` and `beneficiary_is_new` are the
integers obtained from the feature row. -/
def apply_decision_rules (fraud_probability anomaly_score : ℚ)
    (is_qr beneficiary_is_new : ℤ) : Category × String :=
  let HIGH_FRAUD_THRESHOLD : ℚ := 0.7
  let SOFT_FRAUD_THRESHOLD : ℚ := 0.5
  let HIGH_ANOMALY_THRESHOLD : ℚ := -0.15
  let SOFT_ANOMALY_THRESHOLD : ℚ := -0.10
  let high_fraud := fraud_probability ≥ HIGH_FRAUD_THRESHOLD
  let high_anomaly := anomaly_score ≤ HIGH_ANOMALY_THRESHOLD
  let soft_fraud := fraud_probability ≥ SOFT_FRAUD_THRESHOLD
  let soft_anomaly := anomaly_score ≤ SOFT_ANOMALY_THRESHOLD
  let qr_payment := is_qr = 1
  let new_beneficiary := beneficiary_is_new = 1
  if high_fraud ∧ high_anomaly ∧ qr_payment ∧ new_beneficiary then
    (Category.HARD_BLOCK, "QR_NEW_BENEFICIARY_HIGH_FRAUD_HIGH_ANOMALY")
  else if soft_fraud ∨ soft_anomaly then
    let reasons : List String :=
      (if soft_fraud then ["FRAUD_SIGNAL"] else []) ++
      (if soft_anomaly then ["ANOMALY_SIGNAL"] else [])
    (Category.SOFT_BLOCK, String.intercalate "_" reasons)
  else
    (Category.ALLOW, "NO_SIGNIFICANT_RISK")

/-- C1: HARD_BLOCK fires exactly on the four-way conjunction, and then the
reason code is `QR_NEW_BENEFICIARY_HIGH_FRAUD_HIGH_ANOMALY`; no other input
reaches HARD_BLOCK. -/
theorem hard_block_iff_four_way (fp a : ℚ) (q bn : ℤ) :
    ((apply_decision_rules fp a q bn).1 = Category.HARD_BLOCK ↔
      (fp ≥ 0.7 ∧ a ≤ -0.15 ∧ q = 1 ∧ bn = 1)) ∧
    ((fp ≥ 0.7 ∧ a ≤ -0.15 ∧ q = 1 ∧ bn = 1) →
      (apply_decision_rules fp a q bn).2 =
        "QR_NEW_BENEFICIARY_HIGH_FRAUD_HIGH_ANOMALY") := by
  unfold apply_decision_rules
  dsimp only
  split_ifs with h1 h2 <;> simp_all

/-- Witness for C1: a concrete input on which the four-way conjunction holds
and the theorem yields the HARD_BLOCK decision and reason code. -/
theorem hard_block_iff_four_way_witness :
    (apply_decision_rules 0.8 (-0.2) 1 1).1 = Category.HARD_BLOCK ∧
    (apply_decision_rules 0.8 (-0.2) 1 1).2 =
      "QR_NEW_BENEFICIARY_HIGH_FRAUD_HIGH_ANOMALY" :=
  ⟨(hard_block_iff_four_way 0.8 (-0.2) 1 1).1.mpr
      (by norm_num),
   (hard_block_iff_four_way 0.8 (-0.2) 1 1).2
      (by norm_num)⟩

/-- C2: whenever the hard-block conjunction fails, SOFT_BLOCK fires exactly
when the soft fraud or soft anomaly condition holds, and the reason code is
the underscore-joined list of the fired signals, FRAUD_SIGNAL first. -/
theorem soft_block_spec (fp a : ℚ) (q bn : ℤ)
    (h : ¬(fp ≥ 0.7 ∧ a ≤ -0.15 ∧ q = 1 ∧ bn = 1)) :
    ((apply_decision_rules fp a q bn).1 = Category.SOFT_BLOCK ↔
      (fp ≥ 0.5 ∨ a ≤ -0.10)) ∧
    (fp ≥ 0.5 → a ≤ -0.10 →
      (apply_decision_rules fp a q bn).2 = "FRAUD_SIGNAL_ANOMALY_SIGNAL") ∧
    (fp ≥ 0.5 → ¬(a ≤ -0.10) →
      (apply_decision_rules fp a q bn).2 = "FRAUD_SIGNAL") ∧
    (¬(fp ≥ 0.5) → a ≤ -0.10 →
      (apply_decision_rules fp a q bn).2 = "ANOMALY_SIGNAL") := by
  unfold apply_decision_rules
  dsimp only
  split_ifs with h1 h2 <;> simp_all <;> rfl

/-- Witness for C2: at fraud 0.9, anomaly -0.2, is_qr 0 the hard-block
conjunction fails and both signals fire, giving
`FRAUD_SIGNAL_ANOMALY_SIGNAL`. -/
theorem soft_block_spec_witness :
    (apply_decision_rules 0.9 (-0.2) 0 1).1 = Category.SOFT_BLOCK ∧
    (apply_decision_rules 0.9 (-0.2) 0 1).2 = "FRAUD_SIGNAL_ANOMALY_SIGNAL" :=
  ⟨(soft_block_spec 0.9 (-0.2) 0 1 (by norm_num)).1.mpr
      (by norm_num),
   (soft_block_spec 0.9 (-0.2) 0 1 (by norm_num)).2.1
      (by norm_num) (by norm_num)⟩

/-- C3: the rule layer is total with exactly one of the three categories and
a non-empty reason code, and it returns ALLOW with `NO_SIGNIFICANT_RISK`
precisely when neither the hard-block conjunction nor a soft condition
holds. -/
theorem rule_layer_totality (fp a : ℚ) (q bn : ℤ) :
    ((apply_decision_rules fp a q bn).1 = Category.ALLOW ∨
     (apply_decision_rules fp a q bn).1 = Category.SOFT_BLOCK ∨
     (apply_decision_rules fp a q bn).1 = Category.HARD_BLOCK) ∧
    (apply_decision_rules fp a q bn).2 ≠ "" ∧
    (apply_decision_rules fp a q bn = (Category.ALLOW, "NO_SIGNIFICANT_RISK") ↔
      (¬(fp ≥ 0.7 ∧ a ≤ -0.15 ∧ q = 1 ∧ bn = 1) ∧ ¬(fp ≥ 0.5 ∨ a ≤ -0.10))) := by
  unfold apply_decision_rules
  dsimp only
  by_cases hf : fp ≥ (0.5:ℚ) <;> by_cases ha : a ≤ (-0.10:ℚ) <;>
    split_ifs with h1 h2 <;> simp_all <;>
      first
        | rfl
        | decide
        | (rcases h2 with hc | hc <;> linarith)

/-! ### `make_decision` (decision_engine.py lines 38–106)

The two scoring models are out-of-scope oracles (the spec treats them as
opaque, pre-trained, versioned collaborators), modelled as total functions
from the feature row to a rational score.  The input is either a
single-row-or-not DataFrame or some other Python value. -/

/-- One row of a pandas DataFrame: an ordered list of named numeric
columns. -/
structure PdRow where
  cols : List (String × ℚ)
deriving DecidableEq

/-- A Python value passed as `feature_row`: a DataFrame (a list of rows) or
anything else. -/
inductive PyInput where
  | notDataFrame
  | dataFrame (rows : List PdRow)

/-- Python exceptions raised on the `make_decision` path. -/
inductive PyErr where
  | valueError (msg : String)
  | keyError (key : String)
deriving DecidableEq

/-- The dict returned by `make_decision`. -/
structure DecisionOut where
  decision : Category
  risk_score : ℚ
  anomaly_score : ℚ
  reason_code : String
deriving DecidableEq

/-- Column lookup in a row, `feature_row[name].iloc[0]`; `none` models the
KeyError on a missing column. -/
def col_val (r : PdRow) (name : String) : Option ℚ :=
  (r.cols.find? (fun p => p.1 == name)).map Prod.snd

/-- Python `int()` applied to a numeric value: truncation toward zero. -/
def py_int (q : ℚ) : ℤ :=
  if 0 ≤ q then ⌊q⌋ else -⌊-q⌋

/-- Embedding of `make_decision`: defensive checks (not a DataFrame, not
exactly one row), model scoring, rule-feature extraction (KeyError when a
required column is missing), then the rule layer. -/
def make_decision (fraud_model anomaly_model : PdRow → ℚ) :
    PyInput → Except PyErr DecisionOut
  | .notDataFrame => .error (.valueError "feature_row must be a pandas DataFrame")
  | .dataFrame [row] =>
    let fraud_probability := fraud_model row
    let anomaly_score := anomaly_model row
    match col_val row "is_qr", col_val row "beneficiary_is_new" with
    | none, _ => .error (.keyError "is_qr")
    | some _, none => .error (.keyError "beneficiary_is_new")
    | some vq, some vb =>
      let dr := apply_decision_rules fraud_probability anomaly_score
        (py_int vq) (py_int vb)
      .ok ⟨dr.1, fraud_probability, anomaly_score, dr.2⟩
  | .dataFrame _ => .error (.valueError "feature_row must contain exactly one row")

/-! ### SHA-256 (for `audit_logger.py`'s feature hash)

A bit-faithful implementation of SHA-256 over `Nat` arithmetic, all words
reduced mod 2^32.  Feature strings are ASCII, so bytes are the character
codes. -/

/-- Reduce a word mod 2^32. -/
def mod32 (x : Nat) : Nat := x % 4294967296

/-- Rotate a 32-bit word right by `n`. -/
def rotr32 (n x : Nat) : Nat := mod32 ((x >>> n) ||| (x <<< (32 - n)))

/-- Bitwise complement of a 32-bit word. -/
def not32 (x : Nat) : Nat := 4294967295 - x

/-- The 64 SHA-256 round constants. -/
def shaK : List Nat :=
  [1116352408, 1899447441, 3049323471, 3921009573, 961987163, 1508970993,
   2453635748, 2870763221, 3624381080, 310598401, 607225278, 1426881987,
   1925078388, 2162078206, 2614888103, 3248222580, 3835390401, 4022224774,
   264347078, 604807628, 770255983, 1249150122, 1555081692, 1996064986,
   2554220882, 2821834349, 2952996808, 3210313671, 3336571891, 3584528711,
   113926993, 338241895, 666307205, 773529912, 1294757372, 1396182291,
   1695183700, 1986661051, 2177026350, 2456956037, 2730485921, 2820302411,
   3259730800, 3345764771, 3516065817, 3600352804, 4094571909, 275423344,
   430227734, 506948616, 659060556, 883997877, 958139571, 1322822218,
   1537002063, 1747873779, 1955562222, 2024104815, 2227730452, 2361852424,
   2428436474, 2756734187, 3204031479, 3329325298]

/-- The SHA-256 initial hash state. -/
def shaH0 : List Nat :=
  [1779033703, 3144134277, 1013904242, 2773480762, 1359893119, 2600822924,
   528734635, 1541459225]

/-- Big-endian byte rendering of `n` on `k` bytes. -/
def beBytes (k n : Nat) : List Nat :=
  (List.range k).map (fun i => (n >>> (8 * (k - 1 - i))) % 256)

/-- SHA-256 padding: append 0x80, zeros, and the 64-bit bit length. -/
def shaPad (msg : List Nat) : List Nat :=
  msg ++ 0x80 :: List.replicate ((119 - msg.length % 64) % 64) 0 ++
    beBytes 8 (8 * msg.length)

/-- Group bytes into big-endian 32-bit words. -/
def words32 : List Nat → List Nat
  | b0 :: b1 :: b2 :: b3 :: rest =>
    ((((b0 <<< 8) ||| b1) <<< 8 ||| b2) <<< 8 ||| b3) :: words32 rest
  | _ => []

/-- Group a word list into 16-word blocks (the fuel argument only bounds
the recursion depth; `ws.length` always suffices). -/
def blocks16Aux : Nat → List Nat → List (List Nat)
  | 0, _ => []
  | _, [] => []
  | fuel + 1, ws => ws.take 16 :: blocks16Aux fuel (ws.drop 16)

/-- Group a word list into 16-word blocks. -/
def blocks16 (ws : List Nat) : List (List Nat) :=
  blocks16Aux ws.length ws

/-- Extend a 16-word block to the 64-word message schedule. -/
def messageSchedule (w16 : List Nat) : List Nat :=
  (List.range 48).foldl
    (fun w _ =>
      let n := w.length
      let w15 := w.getD (n - 15) 0
      let w2 := w.getD (n - 2) 0
      let s0 := (rotr32 7 w15) ^^^ (rotr32 18 w15) ^^^ (w15 >>> 3)
      let s1 := (rotr32 17 w2) ^^^ (rotr32 19 w2) ^^^ (w2 >>> 10)
      w ++ [mod32 (w.getD (n - 16) 0 + s0 + w.getD (n - 7) 0 + s1)])
    w16

/-- One SHA-256 compression round. -/
def shaRound (st : Nat × Nat × Nat × Nat × Nat × Nat × Nat × Nat)
    (kw : Nat × Nat) : Nat × Nat × Nat × Nat × Nat × Nat × Nat × Nat :=
  let (a, b, c, d, e, f, g, hh) := st
  let S1 := (rotr32 6 e) ^^^ (rotr32 11 e) ^^^ (rotr32 25 e)
  let ch := (e &&& f) ^^^ ((not32 e) &&& g)
  let temp1 := mod32 (hh + S1 + ch + kw.1 + kw.2)
  let S0 := (rotr32 2 a) ^^^ (rotr32 13 a) ^^^ (rotr32 22 a)
  let maj := (a &&& b) ^^^ (a &&& c) ^^^ (b &&& c)
  let temp2 := mod32 (S0 + maj)
  (mod32 (temp1 + temp2), a, b, c, mod32 (d + temp1), e, f, g)

/-- Compress one block into the running hash state. -/
def compressBlock (h : List Nat) (block : List Nat) : List Nat :=
  let w := messageSchedule block
  let fin := (shaK.zip w).foldl shaRound
    (h.getD 0 0, h.getD 1 0, h.getD 2 0, h.getD 3 0,
     h.getD 4 0, h.getD 5 0, h.getD 6 0, h.getD 7 0)
  let (a, b, c, d, e, f, g, hh) := fin
  [mod32 (h.getD 0 0 + a), mod32 (h.getD 1 0 + b), mod32 (h.getD 2 0 + c),
   mod32 (h.getD 3 0 + d), mod32 (h.getD 4 0 + e), mod32 (h.getD 5 0 + f),
   mod32 (h.getD 6 0 + g), mod32 (h.getD 7 0 + hh)]

/-- SHA-256 digest of a byte list, as eight 32-bit words. -/
def sha256words (msg : List Nat) : List Nat :=
  (blocks16 (words32 (shaPad msg))).foldl compressBlock shaH0

/-- A lowercase hexadecimal digit. -/
def hexDigit (n : Nat) : Char :=
  if n < 10 then Char.ofNat (48 + n) else Char.ofNat (87 + n)

/-- Lowercase 8-digit hex rendering of a 32-bit word. -/
def word8hex (x : Nat) : List Char :=
  (List.range 8).map (fun i => hexDigit ((x >>> (4 * (7 - i))) % 16))

/-- `hashlib.sha256(...).hexdigest()` of a byte list. -/
def sha256hex (msg : List Nat) : String :=
  String.mk ((sha256words msg).map word8hex).flatten

/-! ### Audit logger: `src/api/audit_logger.py`

Feature values reach the hash as Python `str(v)` renderings (the features
are numeric, so these are comma-free decimal strings); the embedding
represents each value by that rendering.  The JSONL file is modelled as
its list of lines. -/

/-- The sequence `feature_row.values.flatten()`: the row's values in the
DataFrame's column order (column names do not enter the hash). -/
def row_values (r : List (String × String)) : List String :=
  r.map Prod.snd

/-- Python `",".join(values)`. -/
def feature_str : List String → String
  | [] => ""
  | [v] => v
  | v :: rest => v ++ "," ++ feature_str rest

/-- `hashlib.sha256(feature_str.encode()).hexdigest()` (audit_logger.py
lines 40–43). -/
def feature_hash (vals : List String) : String :=
  sha256hex ((feature_str vals).data.map Char.toNat)

/-- The arguments of one `log_decision` call (scores by their decimal
renderings, the timestamp supplied by the clock). -/
structure AuditCall where
  timestamp : String
  decision : String
  risk_score : String
  anomaly_score : String
  reason_code : String
  feature_row : List (String × String)
  model_versions : List (String × String)
deriving DecidableEq, Inhabited

/-- A JSON string literal (field content here is plain ASCII without
quotes or backslashes, so `json.dumps` escaping is the identity). -/
def jsonStr (s : String) : String := "\"" ++ s ++ "\""

/-- A JSON object from already-rendered field values. -/
def jsonObj (fields : List (String × String)) : String :=
  "\x7b" ++
    String.intercalate ", " (fields.map fun p => jsonStr p.1 ++ ": " ++ p.2) ++
  "\x7d"

/-- The single JSON line `json.dumps(audit_record)` written by
`log_decision` (audit_logger.py lines 45–59). -/
def audit_record_json (c : AuditCall) : String :=
  jsonObj
    [("timestamp", jsonStr c.timestamp),
     ("decision", jsonStr c.decision),
     ("risk_score", c.risk_score),
     ("anomaly_score", c.anomaly_score),
     ("reason_code", jsonStr c.reason_code),
     ("feature_hash", jsonStr (feature_hash (row_values c.feature_row))),
     ("model_versions", jsonObj (c.model_versions.map fun p => (p.1, jsonStr p.2)))]

/-- Embedding of `log_decision`'s effect on the JSONL file: open in append
mode and write one record line at the end. -/
def log_decision (log : List String) (c : AuditCall) : List String :=
  log ++ [audit_record_json c]

/-- A sequence of decisions logged in order. -/
def run_audit_log (log : List String) (cs : List AuditCall) : List String :=
  cs.foldl log_decision log

/-- C6: the audit log is append-only — across any sequence of calls the
record count grows by exactly one per decision, the existing log is
preserved unchanged as a prefix, and the k-th new record is the JSON line
of the k-th call (insertion order). -/
theorem audit_log_append_only (log : List String) (cs : List AuditCall) :
    (run_audit_log log cs).length = log.length + cs.length ∧
    (run_audit_log log cs).take log.length = log ∧
    (∀ k, k < cs.length →
      (run_audit_log log cs).getD (log.length + k) "" =
        audit_record_json (cs.getD k default)) := by
  induction cs generalizing log with
  | nil => simp [run_audit_log]
  | cons c cs ih =>
    have hrun : run_audit_log log (c :: cs) =
        run_audit_log (log ++ [audit_record_json c]) cs := by
      simp [run_audit_log, log_decision]
    obtain ⟨ihlen, ihtake, ihidx⟩ := ih (log ++ [audit_record_json c])
    refine ⟨?_, ?_, ?_⟩
    · rw [hrun, ihlen]; simp; omega
    · rw [hrun]
      have h1 : (run_audit_log (log ++ [audit_record_json c]) cs).take log.length =
          ((run_audit_log (log ++ [audit_record_json c]) cs).take
            (log ++ [audit_record_json c]).length).take log.length := by
        rw [List.take_take]; congr 1; simp
      rw [h1, ihtake]
      simp [List.take_append_eq_append_take]
    · intro k hk
      rw [hrun]
      match k with
      | 0 =>
        have hlt : log.length < (log ++ [audit_record_json c]).length := by simp
        have h2 := ihtake
        have h3 : (run_audit_log (log ++ [audit_record_json c]) cs).getD
            log.length "" = (log ++ [audit_record_json c]).getD log.length "" := by
          have h4 : ∀ (l p : List String), l.take p.length = p →
              ∀ i, i < p.length → l.getD i "" = p.getD i "" := by
            intro l p hp i hi
            have : l.getD i "" = (l.take p.length).getD i "" := by
              simp [List.getD_eq_getElem?_getD, List.getElem?_take_of_lt hi]
            rw [this, hp]
          exact h4 _ _ h2 log.length (by simp)
        simpa using h3
      | Nat.succ k' =>
        have h5 := ihidx k'
          (by simp only [List.length_cons] at hk; omega)
        have h6 : (log ++ [audit_record_json c]).length + k' =
            log.length + (k' + 1) := by simp; omega
        rw [h6] at h5
        simpa using h5

/-- Witness for C6: one call appended to the empty log lands at index 0
with its JSON line. -/
theorem audit_log_append_only_witness :
    (0:Nat) < 1 ∧
    (run_audit_log []
        [⟨"2024-01-01T00:00:00+00:00", "ALLOW", "0.1", "0.2",
          "NO_SIGNIFICANT_RISK", [("is_qr", "0.0")], [("fraud_model", "v1")]⟩]).getD
      0 "" =
      audit_record_json
        ⟨"2024-01-01T00:00:00+00:00", "ALLOW", "0.1", "0.2",
          "NO_SIGNIFICANT_RISK", [("is_qr", "0.0")], [("fraud_model", "v1")]⟩ := by
  refine ⟨by norm_num, ?_⟩
  have h := (audit_log_append_only []
    [⟨"2024-01-01T00:00:00+00:00", "ALLOW", "0.1", "0.2",
      "NO_SIGNIFICANT_RISK", [("is_qr", "0.0")], [("fraud_model", "v1")]⟩]).2.2
    0 (by norm_num)
  simpa using h

/-- Splitting a char list at a comma is unambiguous when neither prefix
contains a comma. -/
theorem comma_split_unique (a : List Char) :
    ∀ (b r1 r2 : List Char), ',' ∉ a → ',' ∉ b →
      a ++ ',' :: r1 = b ++ ',' :: r2 → a = b ∧ r1 = r2 := by
  induction a with
  | nil =>
    intro b r1 r2 _ hb h
    cases b with
    | nil => simpa using h
    | cons d b' =>
      simp only [List.nil_append, List.cons_append, List.cons.injEq] at h
      obtain ⟨h1, _⟩ := h
      subst h1
      exact absurd (List.mem_cons_self _ _) hb
  | cons c a' ih =>
    intro b r1 r2 ha hb h
    cases b with
    | nil =>
      simp only [List.cons_append, List.nil_append, List.cons.injEq] at h
      obtain ⟨h1, _⟩ := h
      subst h1
      exact absurd (List.mem_cons_self _ _) ha
    | cons d b' =>
      simp only [List.cons_append, List.cons.injEq] at h
      obtain ⟨hcd, htail⟩ := h
      obtain ⟨h1, h2⟩ := ih b' r1 r2 (fun hm => ha (List.mem_cons_of_mem _ hm))
        (fun hm => hb (List.mem_cons_of_mem _ hm)) htail
      exact ⟨by rw [hcd, h1], h2⟩

/-- The comma-joined serialization is injective on equal-length lists of
comma-free value renderings. -/
theorem feature_str_inj (xs : List String) :
    ∀ ys : List String, xs.length = ys.length →
      (∀ s ∈ xs, ',' ∉ s.data) → (∀ s ∈ ys, ',' ∉ s.data) →
      feature_str xs = feature_str ys → xs = ys := by
  induction xs with
  | nil =>
    intro ys hlen _ _ _
    cases ys with
    | nil => rfl
    | cons _ _ => simp at hlen
  | cons x xt ih =>
    intro ys hlen hx hy h
    cases ys with
    | nil => simp at hlen
    | cons y yt =>
      cases xt with
      | nil =>
        cases yt with
        | nil => simpa [feature_str] using h
        | cons _ _ => simp at hlen
      | cons x2 xt2 =>
        cases yt with
        | nil => simp at hlen
        | cons y2 yt2 =>
          have hstr : ∀ (s t : String), s.data = t.data → s = t := by
            intro s t hst
            cases s
            cases t
            exact congrArg String.mk hst
          have hd := congrArg String.data h
          simp only [feature_str, String.data_append] at hd
          simp only [List.append_assoc, List.singleton_append] at hd
          obtain ⟨h1, h2⟩ := comma_split_unique x.data (y.data)
            (feature_str (x2 :: xt2)).data (feature_str (y2 :: yt2)).data
            (hx x (List.mem_cons_self _ _)) (hy y (List.mem_cons_self _ _)) hd
          have hxy : x = y := hstr _ _ h1
          have hr : feature_str (x2 :: xt2) = feature_str (y2 :: yt2) :=
            hstr _ _ h2
          have := ih (y2 :: yt2) (by simpa using hlen)
            (fun s hs => hx s (List.mem_cons_of_mem _ hs))
            (fun s hs => hy s (List.mem_cons_of_mem _ hs)) hr
          rw [hxy, this]

/-- C5 (amended): the feature hash is SHA-256 of the comma-joined value
renderings in the DataFrame's column order — equal value sequences hash
identically, and on comma-free renderings the serialization itself is
injective, so changing any single value changes the hashed string (with a
concrete fixture showing the digest changes). -/
theorem feature_hash_value_sequence :
    (∀ r1 r2 : List (String × String), row_values r1 = row_values r2 →
      feature_hash (row_values r1) = feature_hash (row_values r2)) ∧
    (∀ xs ys : List String, xs.length = ys.length →
      (∀ s ∈ xs, ',' ∉ s.data) → (∀ s ∈ ys, ',' ∉ s.data) →
      feature_str xs = feature_str ys → xs = ys) ∧
    feature_hash ["1.0", "2.0", "3.0"] ≠ feature_hash ["1.0", "2.5", "3.0"] :=
  ⟨fun _ _ h => by rw [h], fun xs ys => feature_str_inj xs ys, by decide⟩

/-- Witness for C5 (amended): two rows with different column names but the
same value sequence hash identically, and injectivity applies to a concrete
comma-free pair. -/
theorem feature_hash_value_sequence_witness :
    (row_values [("a", "1.0")] = row_values [("b", "1.0")] ∧
      feature_hash (row_values [("a", "1.0")]) =
        feature_hash (row_values [("b", "1.0")])) ∧
    (feature_str ["7.5", "0.0"] = feature_str ["7.5", "0.0"] ∧
      (["7.5", "0.0"] : List String) = ["7.5", "0.0"]) :=
  ⟨⟨by decide, feature_hash_value_sequence.1 [("a", "1.0")] [("b", "1.0")] (by decide)⟩,
   ⟨rfl, feature_hash_value_sequence.2.1 ["7.5", "0.0"] ["7.5", "0.0"] rfl
      (by decide) (by decide) rfl⟩⟩

/-- Counterexample to C5 as stated: the same logical feature vector
presented with its two columns in the other order (a permutation of the
same name-value pairs) produces a different feature hash, because
`log_decision` serializes `feature_row.values.flatten()` in DataFrame
column order rather than a schema-canonical order. -/
theorem feature_hash_column_order_counterexample :
    [("a", "1.0"), ("b", "2.0")].Perm [("b", "2.0"), ("a", "1.0")] ∧
    feature_hash (row_values [("a", "1.0"), ("b", "2.0")]) ≠
      feature_hash (row_values [("b", "2.0"), ("a", "1.0")]) :=
  ⟨List.Perm.swap _ _ _, by decide⟩

/-! ### Explainer: `src/rag/explainer.py`

The regex passes of `_scrub_pii` are embedded as executable scanners over
`List Char` that reproduce Python `re.sub`'s leftmost scan, greedy
matching with backtracking, and word-boundary semantics for the three
concrete patterns in the source.  All recursive scanners take a fuel
argument (always called with at least the list length, which suffices
because every step consumes at least one character); this keeps them
structurally recursive and kernel-evaluable. -/

/-- ASCII letter. -/
def is_ascii_alpha (c : Char) : Bool :=
  ('a' ≤ c && c ≤ 'z') || ('A' ≤ c && c ≤ 'Z')

/-- ASCII lowercase letter, the class `[a-z]`. -/
def is_ascii_lower (c : Char) : Bool := 'a' ≤ c && c ≤ 'z'

/-- ASCII uppercase letter, the class `[A-Z]`. -/
def is_ascii_upper (c : Char) : Bool := 'A' ≤ c && c ≤ 'Z'

/-- Decimal digit, the class `\d`. -/
def is_digit_char (c : Char) : Bool := '0' ≤ c && c ≤ '9'

/-- The class `\w`: letters, digits, underscore. -/
def is_word_char (c : Char) : Bool :=
  is_ascii_alpha c || is_digit_char c || c == '_'

/-- The class `[\w.-]` (handle local part and domains). -/
def handle_class (c : Char) : Bool :=
  is_word_char c || c == '.' || c == '-'

/-- The class `[\w.%-]` (email local part). -/
def email_local_class (c : Char) : Bool :=
  is_word_char c || c == '.' || c == '%' || c == '-'

/-- The class `\s`: ASCII whitespace. -/
def is_py_space (c : Char) : Bool :=
  c == ' ' || c == '\t' || c == '\n' || c == '\r' ||
    c == Char.ofNat 11 || c == Char.ofNat 12

/-- A word boundary `\b` between a previous character of wordness `pw` and
the character `c` (string start and end count as non-word context). -/
def bdry (pw : Bool) (c : Char) : Bool := is_word_char c != pw

/-- The fixed redaction marker. -/
def redacted : List Char := "[REDACTED]".data

/-- Pass 2 of `_scrub_pii`: `re.sub(r"\d{5,}", "[REDACTED]", text)` —
replace every maximal digit run of length at least 5. -/
def sub_digits_aux : Nat → List Char → List Char
  | 0, cs => cs
  | _ + 1, [] => []
  | fuel + 1, c :: cs =>
    if is_digit_char c then
      let run := List.takeWhile is_digit_char (c :: cs)
      let rest := List.dropWhile is_digit_char (c :: cs)
      if 5 ≤ run.length then redacted ++ sub_digits_aux fuel rest
      else run ++ sub_digits_aux fuel rest
    else c :: sub_digits_aux fuel cs

/-- Pass 2 of `_scrub_pii` at full fuel. -/
def sub_digits (cs : List Char) : List Char := sub_digits_aux cs.length cs

/-- Remove trailing non-word characters (the backtracking of a greedy
`[\w.-]+` against a following `\b`). -/
def drop_trailing_nonword (R : List Char) : List Char :=
  (R.reverse.dropWhile (fun c => ! is_word_char c)).reverse

/-- Attempt of the pattern `\b[\w.-]+@[\w.-]+\b` at the head of `cs`,
where `pw` is the wordness of the preceding character.  Returns the length
of the match: a greedy local run ending exactly at `@`, then a greedy
domain run backtracked until its last character is a word character. -/
def handle_match_at (pw : Bool) (cs : List Char) : Option Nat :=
  match cs with
  | [] => none
  | c :: _ =>
    if handle_class c && bdry pw c then
      let w1 := cs.takeWhile handle_class
      match cs.drop w1.length with
      | d :: rest2 =>
        if d = '@' then
          let dom := drop_trailing_nonword (rest2.takeWhile handle_class)
          if dom.isEmpty then none else some (w1.length + 1 + dom.length)
        else none
      | [] => none
    else none

/-- Pass 3 of `_scrub_pii`:
`re.sub(r"\b[\w.-]+@[\w.-]+\b", "[REDACTED]", text)` — leftmost
non-overlapping matches, scanning with the wordness of the previous
character. -/
def sub_handles_aux : Nat → Bool → List Char → List Char
  | 0, _, cs => cs
  | _ + 1, _, [] => []
  | fuel + 1, pw, c :: cs =>
    match handle_match_at pw (c :: cs) with
    | some n => redacted ++ sub_handles_aux fuel true ((c :: cs).drop n)
    | none => c :: sub_handles_aux fuel (is_word_char c) cs

/-- Pass 3 of `_scrub_pii` at full fuel with string-start context. -/
def sub_handles (pw : Bool) (cs : List Char) : List Char :=
  sub_handles_aux cs.length pw cs

/-- Attempt of the domain part `[\w.-]+\.[A-Za-z]{2,6}\b` at the start of
`rest2` (the text after `@`): the greedy domain run backtracks to each dot
from the right; at a dot, the TLD is the following alpha run, accepted when
its length is between 2 and 6 and it is followed by a non-word character or
by the end of the run. -/
def email_domain_len (rest2 : List Char) : Option Nat :=
  let R := rest2.takeWhile handle_class
  let valid := fun k =>
    let after := R.drop (k + 1)
    let a := (after.takeWhile is_ascii_alpha).length
    2 ≤ a && a ≤ 6 && (a == after.length || ! is_word_char (after.getD a ' '))
  let dots := ((List.range R.length).filter
    (fun k => 1 ≤ k && (R.getD k ' ' == '.'))).reverse
  match dots.find? valid with
  | some k => some (k + 1 + ((R.drop (k + 1)).takeWhile is_ascii_alpha).length)
  | none => none

/-- Attempt of `\b[\w.%-]+@[\w.-]+\.[A-Za-z]{2,6}\b` at the head of `cs`. -/
def email_match_at (pw : Bool) (cs : List Char) : Option Nat :=
  match cs with
  | [] => none
  | c :: _ =>
    if email_local_class c && bdry pw c then
      let w1 := cs.takeWhile email_local_class
      match cs.drop w1.length with
      | d :: rest2 =>
        if d = '@' then
          match email_domain_len rest2 with
          | some dl => some (w1.length + 1 + dl)
          | none => none
        else none
      | [] => none
    else none

/-- Pass 1 of `_scrub_pii`:
`re.sub(r"\b[\w.%-]+@[\w.-]+\.[A-Za-z]{2,6}\b", "[REDACTED]", text)`. -/
def sub_emails_aux : Nat → Bool → List Char → List Char
  | 0, _, cs => cs
  | _ + 1, _, [] => []
  | fuel + 1, pw, c :: cs =>
    match email_match_at pw (c :: cs) with
    | some n => redacted ++ sub_emails_aux fuel true ((c :: cs).drop n)
    | none => c :: sub_emails_aux fuel (is_word_char c) cs

/-- Pass 1 of `_scrub_pii` at full fuel with string-start context. -/
def sub_emails (pw : Bool) (cs : List Char) : List Char :=
  sub_emails_aux cs.length pw cs

/-- Embedding of `_scrub_pii` (explainer.py lines 65–72): the email pass,
then the digit-run pass, then the handle pass. -/
def scrub_pii (s : String) : String :=
  String.mk (sub_handles false (sub_digits (sub_emails false s.data)))

/-- Python `str.lower()` on ASCII. -/
def py_lower (c : Char) : Char :=
  if is_ascii_upper c then Char.ofNat (c.toNat + 32) else c

/-- Python `str.strip()`: drop whitespace from both ends. -/
def py_strip (cs : List Char) : List Char :=
  ((cs.dropWhile is_py_space).reverse.dropWhile is_py_space).reverse

/-- `s.replace("_", " ").replace("-", " ")` — both patterns are single
characters, so this is a character map. -/
def replace_us_hyphen (cs : List Char) : List Char :=
  cs.map (fun c => if c == '_' || c == '-' then ' ' else c)

/-- `re.sub(r"([a-z])([A-Z])", r"\1 \2", s)`: insert a space at each
lower-to-upper boundary; the engine resumes after the consumed pair. -/
def camel_split_aux : Nat → List Char → List Char
  | 0, cs => cs
  | _, [] => []
  | _ + 1, [c] => [c]
  | fuel + 1, c1 :: c2 :: rest =>
    if is_ascii_lower c1 && is_ascii_upper c2 then
      c1 :: ' ' :: c2 :: camel_split_aux fuel rest
    else c1 :: camel_split_aux fuel (c2 :: rest)

/-- `re.sub(r"\s+", " ", s)`: collapse every whitespace run to one
space. -/
def collapse_ws_aux : Nat → List Char → List Char
  | 0, cs => cs
  | _, [] => []
  | fuel + 1, c :: cs =>
    if is_py_space c then
      ' ' :: collapse_ws_aux fuel (List.dropWhile is_py_space (c :: cs))
    else c :: collapse_ws_aux fuel cs

/-- Embedding of `_code_to_query` (explainer.py lines 55–62). -/
def code_to_query (reason_code : String) : String :=
  let s1 := replace_us_hyphen reason_code.data
  let s2 := camel_split_aux s1.length s1
  let s3 := py_strip (collapse_ws_aux s2.length s2)
  let s4 := s3.map py_lower
  String.mk ("guidance about ".data ++ s4)

/-- `re.findall(r"\w+", query)`: the maximal word-character runs. -/
def word_tokens_aux : Nat → List Char → List String
  | 0, _ => []
  | _, [] => []
  | fuel + 1, c :: cs =>
    if is_word_char c then
      String.mk (List.takeWhile is_word_char (c :: cs)) ::
        word_tokens_aux fuel (List.dropWhile is_word_char (c :: cs))
    else word_tokens_aux fuel cs

/-- Word tokens of a string. -/
def word_tokens (s : String) : List String :=
  word_tokens_aux s.data.length s.data

/-- Needle is a prefix of the haystack. -/
def is_sub_at : List Char → List Char → Bool
  | [], _ => true
  | _ :: _, [] => false
  | n :: ns, h :: hs => n == h && is_sub_at ns hs

/-- Python substring containment `needle in hay`. -/
def contains_sub (hay needle : List Char) : Bool :=
  match hay with
  | [] => needle.isEmpty
  | _ :: t => is_sub_at needle hay || contains_sub t needle

/-- Sentence-like split
`re.split(r"(?<=[.!?])\s+|\n+", chunk)` (explainer.py line 77): a
whitespace run after sentence punctuation, or a newline run, separates
parts; separators are consumed; empty parts are kept, as with
`re.split`. -/
def split_sentences_aux : Nat → Option Char → List Char → List Char → List String
  | 0, _, acc, cs => [String.mk (acc ++ cs)]
  | _, _, acc, [] => [String.mk acc]
  | fuel + 1, prev, acc, c :: cs =>
    let prevPunct := match prev with
      | some p => p == '.' || p == '!' || p == '?'
      | none => false
    if prevPunct && is_py_space c then
      let ws := List.takeWhile is_py_space (c :: cs)
      let rest := List.dropWhile is_py_space (c :: cs)
      String.mk acc :: split_sentences_aux fuel (some (ws.getLastD ' ')) [] rest
    else if c == '\n' then
      let ws := List.takeWhile (fun x => x == '\n') (c :: cs)
      let rest := List.dropWhile (fun x => x == '\n') (c :: cs)
      String.mk acc :: split_sentences_aux fuel (some (ws.getLastD ' ')) [] rest
    else
      split_sentences_aux fuel (some c) (acc ++ [c]) cs

/-- Sentence-like parts of a chunk. -/
def split_sentences (s : String) : List String :=
  split_sentences_aux s.data.length none [] s.data

/-- Embedding of `_extract_relevant_sentences` (explainer.py lines
75–94) at the source's `max_sentences = 2`: up to two non-empty parts
containing some lowercased query token as a substring of the lowercased
part (the Python token set is a list here — only membership is ever used);
if none match, the first up-to-two parts that are non-empty after
stripping. -/
def extract_relevant_sentences (chunk : String) (query_tokens : List String) :
    List String :=
  let parts := split_sentences chunk
  let lowered_tokens := (query_tokens.filter (fun t => ! t.data.isEmpty)).map
    (fun t => t.data.map py_lower)
  let matching := parts.filter (fun part =>
    ! part.data.isEmpty &&
      lowered_tokens.any (fun tok => contains_sub (part.data.map py_lower) tok))
  let selected := (matching.take 2).map (fun part => String.mk (py_strip part.data))
  if selected.isEmpty then
    ((parts.map (fun p => String.mk (py_strip p.data))).filter
      (fun p => ! p.data.isEmpty)).take 2
  else selected

/-- An ASCII apostrophe. -/
def squote : String := String.mk [Char.ofNat 39]

/-- Python `" ".join(l)` as a recursion on the list. -/
def join_space : List String → String
  | [] => ""
  | [s] => s
  | s :: s2 :: ss => s ++ " " ++ join_space (s2 :: ss)

/-- The fixed closing line of the explanation template. -/
def behavior_line : String :=
  "Behavior patterns referenced: The retrieved guidance focuses on observable transaction and authentication patterns (for example, anomalous transaction amounts, unusual beneficiary additions, or repeated authentication failures) rather than on any individual or account."

/-- The deduplicated list of scrubbed relevant sentences assembled by
`explain_decision` (explainer.py lines 120–137): retrieve the in-range
hits of the search oracle, extract up to two relevant sentences per chunk,
scrub each, and keep non-empty unseen ones in order. -/
def explain_summary (search : String → List Int) (chunks : List String)
    (reason_code : String) : List String :=
  let query := code_to_query reason_code
  let query_tokens := word_tokens query
  let idx_list := (search query).filter (fun i => i != -1)
  let retrieved_texts := idx_list.filterMap (fun (i : Int) =>
    if 0 ≤ i ∧ i < (chunks.length : Int) then chunks.get? i.toNat else none)
  retrieved_texts.foldl (fun acc chunk =>
    (extract_relevant_sentences chunk query_tokens).foldl (fun acc2 s =>
      let cleaned := scrub_pii s
      if ! cleaned.data.isEmpty && ! acc2.contains cleaned then
        acc2 ++ [cleaned]
      else acc2) acc) []

/-- The summary body of the explanation (explainer.py lines 139–143):
the space-join of the assembled sentences, or the fixed fallback line. -/
def explain_body (search : String → List Int) (chunks : List String)
    (reason_code : String) : String :=
  let summary_sentences := explain_summary search chunks reason_code
  if summary_sentences.isEmpty then
    "No relevant guidance found in the knowledge index."
  else join_space summary_sentences

/-- Embedding of `explain_decision` (explainer.py lines 97–152).  The
sentence-embedding model and the FAISS index are out-of-scope oracles with
a fixed deterministic query contract; their composition
`index.search(model.encode(query), TOP_K)` is the `search` argument, and
`chunks` is the loaded chunk list.  Raises on an empty reason code;
otherwise builds the query, retrieves in-range hits, extracts up to two
sentences per chunk, scrubs each, deduplicates preserving order, joins
with spaces, and wraps the body in the fixed template. -/
def explain_decision (search : String → List Int) (chunks : List String)
    (reason_code : String) : Except String String :=
  if reason_code = "" then
    .error "reason_code must be a non-empty string"
  else
    .ok ("Explanation for reason code " ++ squote ++ reason_code ++ squote ++
      ":\n" ++ "Summary: " ++ explain_body search chunks reason_code ++
      "\n" ++ behavior_line)

/-! ### Chunker: `src/rag/build_index.py` -/

/-- Python `text.rfind(" ", start, stop)`: the largest index of a space
character in `[start, stop)`, if any. -/
def py_rfind_space (cs : List Char) (start stop : Nat) : Option Nat :=
  ((List.range cs.length).filter
    (fun i => start ≤ i && i < stop && (cs.getD i '@' == ' '))).getLast?

/-- The cut position chosen by one iteration of `chunk_text`'s loop:
`end = min(start + max_chars, length)`, moved back to the last space
strictly after `start` when `end` is strictly inside the text and such a
space exists. -/
def cut_point (cs : List Char) (max_chars start : Nat) : Nat :=
  let end0 := min (start + max_chars) cs.length
  if end0 < cs.length then
    match py_rfind_space cs start end0 with
    | some j => if start < j then j else end0
    | none => end0
  else end0

/-- Embedding of `chunk_text` (build_index.py lines 58–78): slice from
`start` to the cut point, strip, keep when non-empty, continue from the
cut point.  Fuel bounds the iteration count; `length + 1` suffices for any
`max_chars ≥ 1` (with `max_chars = 0` the Python loop does not terminate,
and the embedding returns the chunks accumulated before the fuel ran
out). -/
def chunk_text_aux (cs : List Char) (max_chars : Nat) : Nat → Nat → List String
  | 0, _ => []
  | fuel + 1, start =>
    if start < cs.length then
      let e := cut_point cs max_chars start
      let chunk := py_strip ((cs.drop start).take (e - start))
      let rest := chunk_text_aux cs max_chars fuel e
      if chunk.isEmpty then rest else String.mk chunk :: rest
    else []

/-- Embedding of `chunk_text` with the source's default `max_chars = 500`. -/
def chunk_text (text : String) (max_chars : Nat := 500) : List String :=
  chunk_text_aux text.data max_chars (text.data.length + 1) 0

/-! ### C4: malformed input is rejected -/

/-- C4: `make_decision` raises for every non-DataFrame input, for every row
count other than one, and for a missing required field, never returning a
decision in those cases; and `explain_decision` raises on an empty reason
code.  Quantified over arbitrary scoring models, search oracle and chunk
list. -/
theorem malformed_input_rejected (fm am : PdRow → ℚ)
    (search : String → List Int) (chunks : List String) :
    (∃ e, make_decision fm am .notDataFrame = .error e) ∧
    (∀ rows : List PdRow, rows.length ≠ 1 →
      ∃ e, make_decision fm am (.dataFrame rows) = .error e) ∧
    (∀ row : PdRow,
      col_val row "is_qr" = none ∨ col_val row "beneficiary_is_new" = none →
      ∃ e, make_decision fm am (.dataFrame [row]) = .error e) ∧
    (∀ inp e, make_decision fm am inp = .error e →
      ∀ out, make_decision fm am inp ≠ .ok out) ∧
    (∃ msg, explain_decision search chunks "" = .error msg) := by
  refine ⟨⟨_, rfl⟩, ?_, ?_, ?_, ⟨_, rfl⟩⟩
  · intro rows hlen
    match rows with
    | [] => exact ⟨_, rfl⟩
    | [r] => simp at hlen
    | r1 :: r2 :: rest => exact ⟨_, rfl⟩
  · intro row hmiss
    cases hq : col_val row "is_qr" with
    | none => exact ⟨.keyError "is_qr", by simp [make_decision, hq]⟩
    | some vq =>
      cases hb : col_val row "beneficiary_is_new" with
      | none =>
        exact ⟨.keyError "beneficiary_is_new", by simp [make_decision, hq, hb]⟩
      | some vb =>
        rcases hmiss with h | h
        · rw [hq] at h; cases h
        · rw [hb] at h; cases h
  · intro inp e he out hcontra
    rw [he] at hcontra
    cases hcontra

/-- Witness for C4: the concrete malformed inputs — a non-DataFrame, an
empty DataFrame, a single row with no columns, and an empty reason code —
all produce errors. -/
theorem malformed_input_rejected_witness :
    (∃ e, make_decision (fun _ => 0) (fun _ => 0) .notDataFrame = .error e) ∧
    (∃ e, make_decision (fun _ => 0) (fun _ => 0) (.dataFrame []) = .error e) ∧
    (∃ e, make_decision (fun _ => 0) (fun _ => 0) (.dataFrame [⟨[]⟩]) = .error e) ∧
    (∃ msg, explain_decision (fun _ => []) [] "" = .error msg) :=
  have h := malformed_input_rejected (fun _ => 0) (fun _ => 0) (fun _ => []) []
  ⟨h.1, h.2.1 [] (by decide), h.2.2.1 ⟨[]⟩ (Or.inl rfl), h.2.2.2.2⟩

/-! ### C7: determinism of the explainer -/

/-- C7: `explain_decision` is deterministic — two calls against the same
search oracle (same loaded index and embedding model), the same chunk
list, and the same reason code return identical strings; the embedding has
no source of randomness or external input. -/
theorem explain_decision_deterministic
    (s1 s2 : String → List Int) (c1 c2 : List String) (r1 r2 : String)
    (hs : s1 = s2) (hc : c1 = c2) (hr : r1 = r2) :
    explain_decision s1 c1 r1 = explain_decision s2 c2 r2 := by
  rw [hs, hc, hr]

/-- Witness for C7: a repeated concrete call yields the identical result. -/
theorem explain_decision_deterministic_witness :
    explain_decision (fun _ => [0]) ["chunk"] "FRAUD_SIGNAL" =
      explain_decision (fun _ => [0]) ["chunk"] "FRAUD_SIGNAL" :=
  explain_decision_deterministic _ _ _ _ _ _ rfl rfl rfl

/-! ### C9: chunk bounds and cut placement -/

/-- The last element of a filtered range is the largest index satisfying
the predicate, and an empty result means no index satisfies it. -/
theorem filter_range_getLast_max (p : Nat → Bool) (n : Nat) :
    (∀ j, ((List.range n).filter p).getLast? = some j →
      p j = true ∧ j < n ∧ ∀ k, j < k → k < n → p k = false) ∧
    (((List.range n).filter p).getLast? = none →
      ∀ k, k < n → p k = false) := by
  induction n with
  | zero => simp
  | succ n ih =>
    rw [List.range_succ, List.filter_append]
    by_cases hp : p n
    · simp only [List.filter_cons, List.filter_nil, hp, if_true]
      constructor
      · intro j hj
        rw [List.getLast?_concat] at hj
        cases hj
        exact ⟨hp, Nat.lt_succ_self n, fun k hk1 hk2 => absurd hk2 (by omega)⟩
      · intro hnone
        rw [List.getLast?_concat] at hnone
        cases hnone
    · simp only [List.filter_cons, List.filter_nil, hp, Bool.false_eq_true,
        if_false, List.append_nil]
      constructor
      · intro j hj
        obtain ⟨h1, h2, h3⟩ := ih.1 j hj
        refine ⟨h1, by omega, fun k hk1 hk2 => ?_⟩
        rcases Nat.lt_or_ge k n with hlt | hge
        · exact h3 k hk1 hlt
        · have : k = n := by omega
          subst this
          simpa using hp
      · intro hnone k hk
        rcases Nat.lt_or_ge k n with hlt | hge
        · exact ih.2 hnone k hlt
        · have : k = n := by omega
          subst this
          simpa using hp

/-- When `rfind` returns an index, it is a space in range and it is the
last space before `stop`. -/
theorem py_rfind_space_some (cs : List Char) (start stop j : Nat)
    (h : py_rfind_space cs start stop = some j) :
    start ≤ j ∧ j < stop ∧ j < cs.length ∧ cs.getD j '@' = ' ' ∧
    ∀ k, j < k → k < stop → k < cs.length → cs.getD k '@' ≠ ' ' := by
  unfold py_rfind_space at h
  obtain ⟨h1, h2, h3⟩ := (filter_range_getLast_max
    (fun i => start ≤ i && i < stop && (cs.getD i '@' == ' ')) cs.length).1 j h
  simp only [Bool.and_eq_true, decide_eq_true_eq, beq_iff_eq] at h1
  refine ⟨h1.1.1, h1.1.2, h2, h1.2, fun k hk1 hk2 hk3 hsp => ?_⟩
  have hfalse := h3 k hk1 hk3
  have hpred : (decide (start ≤ k) && decide (k < stop) &&
      (cs.getD k '@' == ' ')) = true := by
    simp only [Bool.and_eq_true, decide_eq_true_eq, beq_iff_eq]
    exact ⟨⟨by omega, hk2⟩, hsp⟩
  rw [hpred] at hfalse
  exact Bool.noConfusion hfalse

/-- When `rfind` finds nothing, there is no space in the range. -/
theorem py_rfind_space_none (cs : List Char) (start stop : Nat)
    (h : py_rfind_space cs start stop = none) :
    ∀ k, start ≤ k → k < stop → k < cs.length → cs.getD k '@' ≠ ' ' := by
  unfold py_rfind_space at h
  intro k hk1 hk2 hk3 hsp
  have hfalse := (filter_range_getLast_max
    (fun i => start ≤ i && i < stop && (cs.getD i '@' == ' ')) cs.length).2 h k hk3
  have hpred : (decide (start ≤ k) && decide (k < stop) &&
      (cs.getD k '@' == ' ')) = true := by
    simp only [Bool.and_eq_true, decide_eq_true_eq, beq_iff_eq]
    exact ⟨⟨hk1, hk2⟩, hsp⟩
  rw [hpred] at hfalse
  exact Bool.noConfusion hfalse

/-- The cut point never exceeds `start + max_chars`. -/
theorem cut_point_le (cs : List Char) (m start : Nat) :
    cut_point cs m start ≤ start + m := by
  unfold cut_point
  dsimp only
  split_ifs with h1
  · cases h : py_rfind_space cs start (min (start + m) cs.length) with
    | none => exact Nat.min_le_left _ _
    | some j =>
      obtain ⟨_, hj2, _, _, _⟩ := py_rfind_space_some cs start _ j h
      dsimp only
      split_ifs with h2
      · have := Nat.min_le_left (start + m) cs.length
        omega
      · exact Nat.min_le_left _ _
  · exact Nat.min_le_left _ _

/-- When the window lies strictly inside the text, the cut point is the
last space strictly after `start` within `start + m` when such a space
exists, and exactly `start + m` (a possibly mid-word cut) otherwise. -/
theorem cut_point_spec (cs : List Char) (m start : Nat)
    (hin : start + m < cs.length) :
    ((∃ j, start < j ∧ j < start + m ∧ cs.getD j '@' = ' ') →
      (start < cut_point cs m start ∧ cut_point cs m start < start + m ∧
       cs.getD (cut_point cs m start) '@' = ' ' ∧
       ∀ k, cut_point cs m start < k → k < start + m →
         cs.getD k '@' ≠ ' ')) ∧
    ((¬ ∃ j, start < j ∧ j < start + m ∧ cs.getD j '@' = ' ') →
      cut_point cs m start = start + m) := by
  have hmin : min (start + m) cs.length = start + m :=
    Nat.min_eq_left (Nat.le_of_lt hin)
  unfold cut_point
  dsimp only
  rw [hmin, if_pos hin]
  cases h : py_rfind_space cs start (start + m) with
  | none =>
    dsimp only
    constructor
    · rintro ⟨j, hj1, hj2, hj3⟩
      exact absurd hj3 (py_rfind_space_none cs start _ h j (by omega) hj2
        (by omega))
    · intro
      rfl
  | some j =>
    obtain ⟨hj0, hj1, hj2, hj3, hj4⟩ := py_rfind_space_some cs start _ j h
    dsimp only
    split_ifs with h2
    · constructor
      · intro
        exact ⟨h2, hj1, hj3, fun k hk1 hk2 => hj4 k hk1 hk2 (by omega)⟩
      · rintro hno
        exact absurd ⟨j, h2, hj1, hj3⟩ hno
    · constructor
      · rintro ⟨j', hj'1, hj'2, hj'3⟩
        exact absurd hj'3 (hj4 j' (by omega) hj'2 (by omega))
      · intro
        rfl

/-- Stripping only shortens. -/
theorem py_strip_length_le (l : List Char) : (py_strip l).length ≤ l.length := by
  unfold py_strip
  rw [List.length_reverse]
  calc ((l.dropWhile is_py_space).reverse.dropWhile is_py_space).length
      ≤ (l.dropWhile is_py_space).reverse.length :=
        (List.dropWhile_sublist _).length_le
    _ = (l.dropWhile is_py_space).length := List.length_reverse _
    _ ≤ l.length := (List.dropWhile_sublist _).length_le

/-- Every chunk produced by the loop is at most `max_chars` long. -/
theorem chunk_text_aux_le (cs : List Char) (m : Nat) :
    ∀ fuel start c, c ∈ chunk_text_aux cs m fuel start → c.length ≤ m := by
  intro fuel
  induction fuel with
  | zero =>
    intro start c hc
    simp [chunk_text_aux] at hc
  | succ fuel ih =>
    intro start c hc
    rw [chunk_text_aux] at hc
    by_cases hs : start < cs.length
    · rw [if_pos hs] at hc
      dsimp only at hc
      split_ifs at hc with hemp
      · exact ih _ c hc
      · rcases List.mem_cons.mp hc with hh | ht
        · subst hh
          show (py_strip ((cs.drop start).take (cut_point cs m start - start))).length ≤ m
          calc (py_strip ((cs.drop start).take (cut_point cs m start - start))).length
              ≤ ((cs.drop start).take (cut_point cs m start - start)).length :=
                py_strip_length_le _
            _ ≤ cut_point cs m start - start := by
                rw [List.length_take]; exact Nat.min_le_left _ _
            _ ≤ m := by have := cut_point_le cs m start; omega
        · exact ih _ c ht
    · rw [if_neg hs] at hc
      cases hc

/-- C9 (amended): every chunk is at most 500 characters; when a cut falls
strictly inside the text it is placed at the last space character strictly
after the chunk start within the 500-character window when such a space
exists, and otherwise at exactly 500 characters — possibly mid-word, and
without considering non-space whitespace. -/
theorem chunk_text_bound_and_cut :
    (∀ (text : String) (c : String), c ∈ chunk_text text 500 →
      c.length ≤ 500) ∧
    (∀ (cs : List Char) (start : Nat), start + 500 < cs.length →
      ((∃ j, start < j ∧ j < start + 500 ∧ cs.getD j '@' = ' ') →
        (start < cut_point cs 500 start ∧ cut_point cs 500 start < start + 500 ∧
         cs.getD (cut_point cs 500 start) '@' = ' ' ∧
         ∀ k, cut_point cs 500 start < k → k < start + 500 →
           cs.getD k '@' ≠ ' ')) ∧
      ((¬ ∃ j, start < j ∧ j < start + 500 ∧ cs.getD j '@' = ' ') →
        cut_point cs 500 start = start + 500)) :=
  ⟨fun text c hc => chunk_text_aux_le text.data 500 _ 0 c hc,
   fun cs start hin => cut_point_spec cs 500 start hin⟩

/-- A 502-character text whose only space sits at index 10. -/
def cut_fixture : List Char :=
  List.replicate 10 'x' ++ ' ' :: List.replicate 491 'x'

/-- Witness for C9 (amended): a two-word text chunks within the bound, and
on the concrete fixture the cut lands on the space at index 10. -/
theorem chunk_text_bound_and_cut_witness :
    ("ab" ∈ chunk_text "ab" 500 ∧ ("ab" : String).length ≤ 500) ∧
    (0 + 500 < cut_fixture.length ∧ 0 < cut_point cut_fixture 500 0 ∧
      cut_fixture.getD (cut_point cut_fixture 500 0) '@' = ' ') := by
  refine ⟨⟨by decide, chunk_text_bound_and_cut.1 "ab" "ab" (by decide)⟩,
    ⟨by decide, ?_, ?_⟩⟩
  · exact (((chunk_text_bound_and_cut.2 cut_fixture 0 (by decide)).1
      ⟨10, by decide, by decide, by decide⟩)).1
  · exact (((chunk_text_bound_and_cut.2 cut_fixture 0 (by decide)).1
      ⟨10, by decide, by decide, by decide⟩)).2.2.1

/-- A 601-character text: 200 letters, a newline, then a 400-letter word. -/
def chunk_fixture : String :=
  String.mk (List.replicate 200 'b' ++ '\n' :: List.replicate 400 'b')

/-- Counterexample to C9 as stated: on `chunk_fixture` the first cut falls
strictly inside the text at exactly 500 characters with letters on both
sides of the cut (the 400-letter word is broken), even though a whitespace
boundary (the newline at index 200) exists at or before the limit —
`chunk_text` only splits at a space, and cuts mid-word when the window has
none. -/
theorem chunk_text_whitespace_counterexample :
    (chunk_text chunk_fixture).map String.length = [500, 101] ∧
    chunk_fixture.data.getD 200 '@' = '\n' ∧
    is_py_space '\n' = true ∧
    ((chunk_text chunk_fixture).getD 0 "").data.getD 499 '@' = 'b' ∧
    ((chunk_text chunk_fixture).getD 1 "").data.getD 0 '@' = 'b' :=
  ⟨by decide, by decide, by decide, by decide, by decide⟩

/-! ### Tokens for the PII claims (C8, C10)

`HToken pw t` says `t` contains an occurrence of a local@domain-shaped
handle: a contiguous `[\w.-]+ '@' [\w.-]+` span whose start sits on a word
boundary (relative to the context wordness `pw` at the start of `t`) and
whose domain part contains a word character — exactly the configurations
on which the source's handle regex has a match.  `has_digit_run5 t` says
`t` contains five consecutive digits.  `EToken t` says `t` contains an
email-shaped token per the source's email regex: a boundary-reachable
`[\w.%-]+ '@' [\w.-]+ '.' [A-Za-z]{2,6}` span whose TLD is followed by a
non-word character or the end. -/

/-- Wordness of the character preceding a position whose prefix is `pre`,
with `pw` the context at the very start. -/
def prev_word (pw : Bool) (pre : List Char) : Bool :=
  match pre.getLast? with
  | some p => is_word_char p
  | none => pw

/-- A handle-shaped token occurs in `t` (context wordness `pw` before
`t`). -/
def HToken (pw : Bool) (t : List Char) : Prop :=
  ∃ pre c w1 w2 post,
    t = pre ++ (c :: w1) ++ '@' :: w2 ++ post ∧
    handle_class c = true ∧
    (∀ x ∈ w1, handle_class x = true) ∧
    bdry (prev_word pw pre) c = true ∧
    w2 ≠ [] ∧
    (∀ x ∈ w2, handle_class x = true) ∧
    (∃ x ∈ w2, is_word_char x = true)

/-- Five consecutive digits occur in `t`. -/
def has_digit_run5 (t : List Char) : Prop :=
  ∃ pre run post, t = pre ++ run ++ post ∧ run.length = 5 ∧
    ∀ x ∈ run, is_digit_char x = true

/-- An email-shaped token occurs in `t` (string-start context). -/
def EToken (t : List Char) : Prop :=
  ∃ pre c w1 d tld post,
    t = pre ++ (c :: w1) ++ '@' :: (d ++ '.' :: tld) ++ post ∧
    email_local_class c = true ∧
    (∀ x ∈ w1, email_local_class x = true) ∧
    bdry (prev_word false pre) c = true ∧
    d ≠ [] ∧ (∀ x ∈ d, handle_class x = true) ∧
    (∀ x ∈ tld, is_ascii_alpha x = true) ∧
    2 ≤ tld.length ∧ tld.length ≤ 6 ∧
    (∀ x, post.head? = some x → is_word_char x = false)

/-- A handle token contains an `@`. -/
theorem HToken_mem_at {pw : Bool} {t : List Char} (h : HToken pw t) :
    '@' ∈ t := by
  obtain ⟨pre, c, w1, w2, post, ht, _⟩ := h
  subst ht
  simp

/-- A digit run contains a digit. -/
theorem has_digit_run5_mem {t : List Char} (h : has_digit_run5 t) :
    ∃ x ∈ t, is_digit_char x = true := by
  obtain ⟨pre, run, post, ht, hlen, hall⟩ := h
  subst ht
  match run, hlen with
  | x :: run', _ =>
    exact ⟨x, by simp, hall x (by simp)⟩

/-- The default-valued last element of a non-empty list is an element. -/
theorem getLastD_mem {l : List Char} {d : Char} (h : l ≠ []) :
    l.getLastD d ∈ l := by
  rw [List.getLastD_eq_getLast?, List.getLast?_eq_getLast l h]
  exact List.getLast_mem h

/-- `prev_word` over a cons shifts the context. -/
theorem prev_word_cons (pw : Bool) (c : Char) (pre : List Char) :
    prev_word pw (c :: pre) = prev_word (is_word_char c) pre := by
  cases pre with
  | nil => rfl
  | cons d pre' =>
    unfold prev_word
    rw [List.getLast?_cons_cons]
    cases hlast : (d :: pre').getLast? with
    | none => rw [List.getLast?_eq_none_iff] at hlast; cases hlast
    | some x => rfl

/-- `prev_word` over an append threads through the left part. -/
theorem prev_word_append (pw : Bool) (a b : List Char) :
    prev_word pw (a ++ b) = prev_word (prev_word pw a) b := by
  cases hb : b.getLast? with
  | none =>
    rw [List.getLast?_eq_none_iff] at hb
    subst hb
    simp [prev_word]
  | some x =>
    unfold prev_word
    rw [List.getLast?_append, hb]
    rfl

/-- Decompose an occurrence of `m` inside `a ++ b`: it lies in `a` at the
same offset, lies in `b`, or straddles the boundary. -/
theorem append_three_decomp (a b pre m post : List Char)
    (h : a ++ b = pre ++ m ++ post) :
    (∃ q, a = pre ++ m ++ q) ∨
    (∃ pre_b, pre = a ++ pre_b ∧ b = pre_b ++ m ++ post) ∨
    (∃ m1 m2, m = m1 ++ m2 ∧ m1 ≠ [] ∧ m2 ≠ [] ∧
      a = pre ++ m1 ∧ b = m2 ++ post) := by
  rw [List.append_assoc] at h
  rcases List.append_eq_append_iff.mp h with ⟨a', ha1, ha2⟩ | ⟨c', hc1, hc2⟩
  · exact Or.inr (Or.inl ⟨a', ha1, by rw [ha2, ← List.append_assoc]⟩)
  · rcases List.append_eq_append_iff.mp hc2 with ⟨a', hA1, hA2⟩ | ⟨c'', hB1, hB2⟩
    · exact Or.inl ⟨a', by rw [hc1, hA1, ← List.append_assoc]⟩
    · cases hcn : c' with
      | nil =>
        subst hcn
        rw [List.append_nil] at hc1
        rw [List.nil_append] at hB1
        exact Or.inr (Or.inl ⟨[], by rw [hc1, List.append_nil],
          by rw [hB2, ← hB1, List.nil_append]⟩)
      | cons z zs =>
        cases hccn : c'' with
        | nil =>
          subst hccn
          rw [List.append_nil] at hB1
          exact Or.inl ⟨[], by rw [hc1, ← hB1, List.append_nil]⟩
        | cons y ys =>
          exact Or.inr (Or.inr ⟨c', c'', hB1, by simp [hcn], by simp [hccn],
            hc1, hB2⟩)

/-- The greedy-then-backtracked domain run: decomposition into the kept
part and the stripped non-word tail. -/
theorem drop_trailing_decomp (R : List Char) :
    ∃ S, R = drop_trailing_nonword R ++ S ∧
      ∀ x ∈ S, is_word_char x = false := by
  unfold drop_trailing_nonword
  refine ⟨(R.reverse.takeWhile (fun c => ! is_word_char c)).reverse, ?_, ?_⟩
  · rw [← List.reverse_append, List.takeWhile_append_dropWhile,
      List.reverse_reverse]
  · intro x hx
    rw [List.mem_reverse] at hx
    have := List.mem_takeWhile_imp hx
    simpa using this

/-- The backtracked domain is empty exactly when the run has no word
character. -/
theorem drop_trailing_eq_nil_iff (R : List Char) :
    drop_trailing_nonword R = [] ↔ ∀ x ∈ R, is_word_char x = false := by
  unfold drop_trailing_nonword
  rw [List.reverse_eq_nil_iff, List.dropWhile_eq_nil_iff]
  constructor
  · intro h x hx
    have := h x (by rwa [List.mem_reverse])
    simpa using this
  · intro h x hx
    have := h x (by rwa [← List.mem_reverse])
    simpa using this

/-- The backtracked domain ends in a word character when non-empty. -/
theorem drop_trailing_last_word (R : List Char)
    (h : drop_trailing_nonword R ≠ []) :
    is_word_char ((drop_trailing_nonword R).getLastD '@') = true := by
  unfold drop_trailing_nonword at *
  rw [List.getLastD_eq_getLast?, List.getLast?_reverse]
  cases hh : (R.reverse.dropWhile (fun c => ! is_word_char c)).head? with
  | none =>
    have hnil : (List.dropWhile (fun c => ! is_word_char c) R.reverse).reverse
        = [] := by
      rw [List.head?_eq_none_iff] at hh
      rw [hh]
      rfl
    exact absurd hnil h
  | some x =>
    have := List.head?_dropWhile_not (fun c => ! is_word_char c) R.reverse
    rw [hh] at this
    simp only [Option.all_some] at this
    simpa using this

/-- Members of the backtracked domain come from the run. -/
theorem drop_trailing_mem {R : List Char} {x : Char}
    (hx : x ∈ drop_trailing_nonword R) : x ∈ R := by
  obtain ⟨S, hS, _⟩ := drop_trailing_decomp R
  rw [hS]
  exact List.mem_append_left _ hx

/-- Word characters are handle-class characters. -/
theorem word_imp_handle {x : Char} (h : is_word_char x = true) :
    handle_class x = true := by
  simp [handle_class, h]

/-- Dropping the greedy run drops exactly the `takeWhile` prefix. -/
theorem drop_takeWhile_length (p : Char → Bool) (l : List Char) :
    l.drop (l.takeWhile p).length = l.dropWhile p := by
  have h := List.drop_left (l.takeWhile p) (l.dropWhile p)
  rw [List.takeWhile_append_dropWhile] at h
  exact h

/-- Structure of a successful handle match: the text decomposes into the
matched local run, the `@`, the backtracked domain, and a remainder whose
first character, if any, is not a word character; the match length covers
exactly the first three parts. -/
theorem handle_match_at_some {pw : Bool} {c : Char} {cs' : List Char} {n : Nat}
    (h : handle_match_at pw (c :: cs') = some n) :
    ∃ w1 dom rest,
      c :: cs' = (c :: w1) ++ '@' :: dom ++ rest ∧
      n = (c :: w1).length + 1 + dom.length ∧
      (c :: cs').drop n = rest ∧
      handle_class c = true ∧ (∀ x ∈ w1, handle_class x = true) ∧
      bdry pw c = true ∧
      dom ≠ [] ∧ (∀ x ∈ dom, handle_class x = true) ∧
      (∃ x ∈ dom, is_word_char x = true) ∧
      (∀ x, rest.head? = some x → is_word_char x = false) := by
  rw [handle_match_at] at h
  dsimp only at h
  cases hcb : (handle_class c && bdry pw c) with
  | false => rw [hcb] at h; simp at h
  | true =>
    rw [hcb] at h
    simp only [if_true] at h
    rw [drop_takeWhile_length] at h
    have hcb' := hcb
    simp only [Bool.and_eq_true] at hcb'
    obtain ⟨hc, hb⟩ := hcb'
    have hA : (c :: cs').takeWhile handle_class =
        c :: cs'.takeWhile handle_class := List.takeWhile_cons_of_pos hc
    cases hdw : (c :: cs').dropWhile handle_class with
    | nil => rw [hdw] at h; simp at h
    | cons d rest2 =>
      rw [hdw] at h
      dsimp only at h
      by_cases hd : d = '@'
      · subst hd
        rw [if_pos rfl] at h
        by_cases hemp : (drop_trailing_nonword
            (rest2.takeWhile handle_class)).isEmpty
        · rw [if_pos hemp] at h; cases h
        · rw [if_neg hemp] at h
          rw [Bool.not_eq_true, List.isEmpty_eq_false] at hemp
          obtain ⟨S, hSdec, hSnw⟩ :=
            drop_trailing_decomp (rest2.takeWhile handle_class)
          have hinj := Option.some.inj h
          set w1 := cs'.takeWhile handle_class with hw1def
          set dom := drop_trailing_nonword (rest2.takeWhile handle_class)
            with hdomdef
          set afterR := rest2.dropWhile handle_class with hafdef
          have hrest2 : rest2 = dom ++ (S ++ afterR) := by
            conv_lhs => rw [← @List.takeWhile_append_dropWhile _ handle_class rest2]
            rw [hSdec, List.append_assoc]
          have hdecomp : c :: cs' = (c :: w1) ++ '@' :: dom ++ (S ++ afterR) := by
            conv_lhs => rw [← @List.takeWhile_append_dropWhile _ handle_class (c :: cs')]
            rw [hA, hdw, hrest2]
            simp
          refine ⟨w1, dom, S ++ afterR, hdecomp, ?hn, ?hdrop, hc, ?hw1c, hb,
            hemp, ?hdomc, ?hex, ?hhead⟩
          case hn => rw [← hinj, hA]
          case hdrop =>
            have hn : n = (c :: w1).length + 1 + dom.length := by
              rw [← hinj, hA]
            rw [hdecomp, hn]
            have hgrp : (c :: w1) ++ '@' :: dom ++ (S ++ afterR) =
                ((c :: w1) ++ '@' :: dom) ++ (S ++ afterR) := by simp
            rw [hgrp]
            apply List.drop_left'
            simp [Nat.add_comm, Nat.add_assoc, Nat.add_left_comm]
          case hw1c => exact fun x hx => List.mem_takeWhile_imp hx
          case hdomc =>
            exact fun x hx => List.mem_takeWhile_imp (drop_trailing_mem hx)
          case hex =>
            exact ⟨dom.getLastD '@', getLastD_mem hemp,
              drop_trailing_last_word _ hemp⟩
          case hhead =>
            intro x hx
            cases hS : S with
            | nil =>
              rw [hS, List.nil_append] at hx
              have hnc := List.head?_dropWhile_not handle_class rest2
              rw [← hafdef, hx] at hnc
              simp only [Option.all_some] at hnc
              cases hw : is_word_char x with
              | false => rfl
              | true => rw [word_imp_handle hw] at hnc; cases hnc
            | cons s0 S' =>
              rw [hS] at hx
              simp only [List.cons_append, List.head?_cons,
                Option.some.injEq] at hx
              subst hx
              exact hSnw s0 (by simp [hS])
      · rw [if_neg hd] at h
        cases h

/-- Completeness of the handle matcher: at the start of a text laid out as
local-run, `@`, class-run containing a word character, the matcher
succeeds. -/
theorem handle_match_at_complete (pw : Bool) (c : Char) (w1 w2 post : List Char)
    (hc : handle_class c = true) (hw1 : ∀ x ∈ w1, handle_class x = true)
    (hb : bdry pw c = true) (hw2 : ∀ x ∈ w2, handle_class x = true)
    (hww : ∃ x ∈ w2, is_word_char x = true) :
    ∃ n, handle_match_at pw ((c :: w1) ++ '@' :: w2 ++ post) = some n := by
  have hat : handle_class '@' = false := by decide
  have hform : (c :: w1) ++ '@' :: w2 ++ post =
      c :: (w1 ++ '@' :: (w2 ++ post)) := by simp
  rw [hform, handle_match_at]
  simp only [hc, hb, Bool.and_self, if_true]
  rw [drop_takeWhile_length]
  have htw : (c :: (w1 ++ '@' :: (w2 ++ post))).takeWhile handle_class =
      c :: w1 := by
    rw [List.takeWhile_cons_of_pos hc, List.takeWhile_append_of_pos hw1,
      List.takeWhile_cons_of_neg (by simp [hat])]
    simp
  have hdww : (c :: (w1 ++ '@' :: (w2 ++ post))).dropWhile handle_class =
      '@' :: (w2 ++ post) := by
    rw [List.dropWhile_cons_of_pos hc, List.dropWhile_append_of_pos hw1,
      List.dropWhile_cons_of_neg (by simp [hat])]
  rw [hdww]
  dsimp only
  rw [if_pos rfl]
  have hR : (w2 ++ post).takeWhile handle_class =
      w2 ++ post.takeWhile handle_class :=
    List.takeWhile_append_of_pos hw2
  have hdom : drop_trailing_nonword ((w2 ++ post).takeWhile handle_class) ≠ [] := by
    intro hnil
    rw [drop_trailing_eq_nil_iff] at hnil
    obtain ⟨x, hxmem, hxw⟩ := hww
    have := hnil x (by rw [hR]; exact List.mem_append_left _ hxmem)
    rw [hxw] at this
    cases this
  rw [if_neg (by simp [hdom])]
  exact ⟨_, rfl⟩

/-- An all-class-or-at prefix of the handle scrubber's output is a prefix
of its input: markers begin with `[`, which is in neither class. -/
theorem class_prefix_sub_handles :
    ∀ (fuel : Nat) (pw : Bool) (t m q : List Char),
      (∀ x ∈ m, handle_class x = true ∨ x = '@') →
      sub_handles_aux fuel pw t = m ++ q → ∃ q', t = m ++ q' := by
  intro fuel
  induction fuel with
  | zero => exact fun pw t m q _ h => ⟨q, h⟩
  | succ fuel ih =>
    intro pw t m q hm h
    match t with
    | [] =>
      rw [sub_handles_aux] at h
      rw [List.nil_eq, List.append_eq_nil] at h
      exact ⟨[], by simp [h.1]⟩
    | c :: cs =>
      rw [sub_handles_aux] at h
      cases hma : handle_match_at pw (c :: cs) with
      | some n =>
        rw [hma] at h
        dsimp only at h
        cases m with
        | nil => exact ⟨c :: cs, rfl⟩
        | cons m0 m' =>
          have hm0 : m0 = '[' := by
            have := congrArg List.head? h
            simpa [redacted] using this.symm
          have := hm m0 (by simp)
          rw [hm0] at this
          rcases this with hcl | hat
          · cases hcl
          · cases hat
      | none =>
        rw [hma] at h
        dsimp only at h
        cases m with
        | nil => exact ⟨c :: cs, rfl⟩
        | cons m0 m' =>
          rw [List.cons_append] at h
          have hc0 : c = m0 := (List.cons.injEq _ _ _ _ ▸ h).1
          have htl : sub_handles_aux fuel (is_word_char c) cs = m' ++ q :=
            (List.cons.injEq _ _ _ _ ▸ h).2
          obtain ⟨q', hq'⟩ := ih (is_word_char c) cs m' q
            (fun x hx => hm x (by simp [hx])) htl
          exact ⟨q', by rw [hc0, List.cons_append, ← hq']⟩

/-- The scrubber's head is the input's head or the marker's bracket. -/
theorem sub_handles_head (fuel : Nat) (pw : Bool) (t : List Char) :
    (sub_handles_aux fuel pw t).head? = t.head? ∨
    (sub_handles_aux fuel pw t).head? = some '[' := by
  match fuel, t with
  | 0, t => exact Or.inl rfl
  | fuel + 1, [] => exact Or.inl rfl
  | fuel + 1, c :: cs =>
    rw [sub_handles_aux]
    cases hma : handle_match_at pw (c :: cs) with
    | some n => exact Or.inr (by simp [redacted])
    | none => exact Or.inl (by simp)

/-- A token after a leading character transfers into the tail with the
character's wordness as context. -/
theorem HToken_cons_elim {pw : Bool} {c₀ : Char} {l : List Char}
    (hc₀ : handle_class c₀ = false) (h : HToken pw (c₀ :: l)) :
    HToken (is_word_char c₀) l := by
  obtain ⟨pre, c, w1, w2, post, ht, hc, hw1, hb, hw2ne, hw2, hww⟩ := h
  cases pre with
  | nil =>
    simp only [List.nil_append, List.cons_append, List.append_assoc,
      List.cons.injEq] at ht
    rw [ht.1] at hc₀
    rw [hc] at hc₀
    cases hc₀
  | cons p pre' =>
    simp only [List.cons_append, List.append_assoc, List.cons.injEq] at ht
    refine ⟨pre', c, w1, w2, post, by rw [ht.2]; simp, hc, hw1, ?_,
      hw2ne, hw2, hww⟩
    rw [prev_word_cons, ← ht.1] at hb
    exact hb

/-- A token in the tail lifts over any leading character. -/
theorem HToken_cons_intro {pw : Bool} {c₀ : Char} {l : List Char}
    (h : HToken (is_word_char c₀) l) : HToken pw (c₀ :: l) := by
  obtain ⟨pre, c, w1, w2, post, ht, hc, hw1, hb, hw2ne, hw2, hww⟩ := h
  refine ⟨c₀ :: pre, c, w1, w2, post, by rw [ht]; simp, hc, hw1,
    ?_, hw2ne, hw2, hww⟩
  rw [prev_word_cons]
  exact hb

/-- The start context is irrelevant for a non-empty prefix. -/
theorem prev_word_ne_nil {pw pw' : Bool} {pre : List Char} (h : pre ≠ []) :
    prev_word pw pre = prev_word pw' pre := by
  unfold prev_word
  cases hl : pre.getLast? with
  | none => rw [List.getLast?_eq_none_iff] at hl; exact absurd hl h
  | some x => rfl

/-- Under the false context, a text whose head is not a word character
carries its tokens unchanged into any context. -/
theorem HToken_false_to_any {t : List Char} (h : HToken false t)
    (hhead : ∀ x, t.head? = some x → is_word_char x = false) (pw : Bool) :
    HToken pw t := by
  obtain ⟨pre, c, w1, w2, post, ht, hc, hw1, hb, hw2ne, hw2, hww⟩ := h
  cases pre with
  | nil =>
    exfalso
    have hch : t.head? = some c := by rw [ht]; simp
    have := hhead c hch
    unfold prev_word at hb
    simp only [List.getLast?_nil] at hb
    rw [bdry, this] at hb
    cases hb
  | cons p pre' =>
    refine ⟨p :: pre', c, w1, w2, post, ht, hc, hw1, ?_, hw2ne, hw2, hww⟩
    rw [@prev_word_ne_nil _ false _ (by simp)]
    exact hb

/-- Characters of the core of a handle token are class characters or the
`@`. -/
theorem core_chars {c : Char} {w1 w2 : List Char} {x : Char}
    (hc : handle_class c = true) (hw1 : ∀ y ∈ w1, handle_class y = true)
    (hw2 : ∀ y ∈ w2, handle_class y = true)
    (hx : x ∈ (c :: w1) ++ '@' :: w2) :
    handle_class x = true ∨ x = '@' := by
  rcases List.mem_append.mp hx with hx1 | hx2
  · rcases List.mem_cons.mp hx1 with hh | ht
    · exact Or.inl (hh ▸ hc)
    · exact Or.inl (hw1 x ht)
  · rcases List.mem_cons.mp hx2 with hh | ht
    · exact Or.inr hh
    · exact Or.inl (hw2 x ht)

/-- Splitting a token occurrence across an append: it lies in the left
part, or in the right part with the threaded context, provided the
boundary cannot host a core (the right part starts, or the left part ends,
outside the class and away from `@`). -/
theorem HToken_append_cases {pw : Bool} {a b : List Char}
    (hsep : (∀ x, b.head? = some x → (handle_class x = false ∧ x ≠ '@')) ∨
      (a ≠ [] ∧ ∀ x, a.getLast? = some x → (handle_class x = false ∧ x ≠ '@')))
    (h : HToken pw (a ++ b)) :
    HToken pw a ∨ HToken (prev_word pw a) b := by
  obtain ⟨pre, c, w1, w2, post, ht, hc, hw1, hb, hw2ne, hw2, hww⟩ := h
  have ht' : a ++ b = pre ++ ((c :: w1) ++ '@' :: w2) ++ post := by
    rw [ht]; simp
  rcases append_three_decomp a b pre _ post ht' with
    ⟨q, hq⟩ | ⟨pre_b, hpb1, hpb2⟩ | ⟨m1, m2, hm, hm1ne, hm2ne, ha, hbb⟩
  · exact Or.inl ⟨pre, c, w1, w2, q, by rw [hq]; simp, hc, hw1, hb, hw2ne,
      hw2, hww⟩
  · refine Or.inr ⟨pre_b, c, w1, w2, post, by rw [hpb2]; simp, hc, hw1, ?_,
      hw2ne, hw2, hww⟩
    rw [← prev_word_append, ← hpb1]
    exact hb
  · exfalso
    rcases hsep with hleft | ⟨hane, hright⟩
    · cases m2 with
      | nil => exact hm2ne rfl
      | cons y ys =>
        have hyb : b.head? = some y := by rw [hbb]; simp
        have hycore : y ∈ (c :: w1) ++ '@' :: w2 := by
          rw [hm]; exact List.mem_append_right _ (by simp)
        obtain ⟨hy1, hy2⟩ := hleft y hyb
        rcases core_chars hc hw1 hw2 hycore with hcl | hat
        · rw [hcl] at hy1; cases hy1
        · exact hy2 hat
    · have hm1last : ∃ z, m1.getLast? = some z := by
        cases hm1 : m1 with
        | nil => exact absurd hm1 hm1ne
        | cons u us => exact ⟨(u :: us).getLast (by simp),
            List.getLast?_eq_getLast _ _⟩
      obtain ⟨z, hz⟩ := hm1last
      have hza : a.getLast? = some z := by
        rw [ha, List.getLast?_append, hz]
        rfl
      have hzcore : z ∈ (c :: w1) ++ '@' :: w2 := by
        rw [hm]
        exact List.mem_append_left _ (List.mem_of_mem_getLast? hz)
      obtain ⟨hz1, hz2⟩ := hright z hza
      rcases core_chars hc hw1 hw2 hzcore with hcl | hat
      · rw [hcl] at hz1; cases hz1
      · exact hz2 hat

/-- Soundness of the matcher: a successful match exhibits a token. -/
theorem handle_match_at_sound {pw : Bool} {t : List Char} {n : Nat}
    (h : handle_match_at pw t = some n) : HToken pw t := by
  match t with
  | [] => rw [handle_match_at] at h; cases h
  | c :: cs' =>
    obtain ⟨w1, dom, rest, hdec, _, _, hc, hw1, hb, hdomne, hdomc, hdomw, _⟩ :=
      handle_match_at_some h
    exact ⟨[], c, w1, dom, rest, by rw [hdec]; simp, hc, hw1,
      by simpa [prev_word] using hb, hdomne, hdomc, hdomw⟩

/-- No handle-shaped token survives the handle pass: the main establishing
lemma for the last `_scrub_pii` substitution. -/
theorem no_htoken_sub_handles :
    ∀ (fuel : Nat) (t : List Char) (pw : Bool), t.length ≤ fuel →
      ¬ HToken pw (sub_handles_aux fuel pw t) := by
  intro fuel
  induction fuel with
  | zero =>
    intro t pw hlen h
    have ht : t = [] := List.length_eq_zero.mp (Nat.le_zero.mp hlen)
    subst ht
    simpa [sub_handles_aux] using HToken_mem_at h
  | succ fuel ih =>
    intro t pw hlen h
    match t with
    | [] => simpa [sub_handles_aux] using HToken_mem_at h
    | c :: cs =>
      rw [sub_handles_aux] at h
      cases hma : handle_match_at pw (c :: cs) with
      | none =>
        rw [hma] at h
        dsimp only at h
        obtain ⟨pre, c₁, w1, w2, post, hteq, hc1, hw1, hb, hw2ne, hw2, hww⟩ := h
        cases pre with
        | nil =>
          simp only [List.nil_append, List.cons_append, List.append_assoc,
            List.cons.injEq] at hteq
          obtain ⟨hcc, hout⟩ := hteq
          have hchars : ∀ x ∈ w1 ++ '@' :: w2,
              handle_class x = true ∨ x = '@' := by
            intro x hx
            refine @core_chars _ _ _ x hc1 hw1 hw2 ?_
            rcases List.mem_append.mp hx with h1 | h2
            · exact List.mem_append_left _ (List.mem_cons_of_mem _ h1)
            · exact List.mem_append_right _ h2
          obtain ⟨q', hq'⟩ := class_prefix_sub_handles fuel (is_word_char c) cs
            (w1 ++ '@' :: w2) post hchars (by rw [hout]; simp)
          have hcs : c :: cs = (c :: w1) ++ '@' :: w2 ++ q' := by
            rw [hq']
            simp
          have hc' : handle_class c = true := by rw [hcc]; exact hc1
          have hb' : bdry pw c = true := by
            rw [hcc]
            simpa [prev_word] using hb
          obtain ⟨n, hn⟩ := handle_match_at_complete pw c w1 w2 q'
            hc' hw1 hb' hw2 hww
          rw [← hcs] at hn
          rw [hn] at hma
          cases hma
        | cons p pre' =>
          simp only [List.cons_append, List.append_assoc,
            List.cons.injEq] at hteq
          obtain ⟨hcp, hout⟩ := hteq
          have htok : HToken (is_word_char c) (sub_handles_aux fuel
              (is_word_char c) cs) := by
            refine ⟨pre', c₁, w1, w2, post, by rw [hout]; simp, hc1, hw1, ?_,
              hw2ne, hw2, hww⟩
            rw [prev_word_cons, ← hcp] at hb
            exact hb
          have hlen' : cs.length ≤ fuel := by
            simp only [List.length_cons] at hlen
            omega
          exact ih cs (is_word_char c) hlen' htok
      | some n =>
        rw [hma] at h
        dsimp only at h
        obtain ⟨w1, dom, rest, hdec, hn, hdrop, hc, hw1, hb, hdomne, hdomc,
          hdomw, hresthead⟩ := handle_match_at_some hma
        have hsep : (∀ x, (sub_handles_aux fuel true ((c :: cs).drop n)).head? =
              some x → (handle_class x = false ∧ x ≠ '@')) ∨
            (redacted ≠ [] ∧ ∀ x, redacted.getLast? = some x →
              (handle_class x = false ∧ x ≠ '@')) := by
          right
          refine ⟨by decide, ?_⟩
          intro x hx
          have hx' : x = ']' := by
            simp only [redacted] at hx
            have := (by simpa [String.data] using hx : ']' = x)
            exact this.symm
          subst hx'
          exact ⟨by decide, by decide⟩
        rcases HToken_append_cases hsep h with hmk | hrec
        · exact absurd (HToken_mem_at hmk) (by decide)
        · have hpw : prev_word pw redacted = false := rfl
          rw [hpw] at hrec
          have hhead : ∀ x, (sub_handles_aux fuel true ((c :: cs).drop n)).head? =
              some x → is_word_char x = false := by
            intro x hx
            rcases sub_handles_head fuel true ((c :: cs).drop n) with hh | hh
            · rw [hh] at hx
              rw [hdrop] at hx
              exact hresthead x hx
            · rw [hh] at hx
              cases hx
              decide
          have htok := HToken_false_to_any hrec hhead true
          have hlen' : ((c :: cs).drop n).length ≤ fuel := by
            rw [List.length_drop]
            have hn1 : 1 ≤ n := by rw [hn]; omega
            simp only [List.length_cons] at hlen ⊢
            omega
          exact ih ((c :: cs).drop n) true hlen' htok

/-- The handle pass is the identity on token-free text. -/
theorem sub_handles_id :
    ∀ (fuel : Nat) (t : List Char) (pw : Bool), t.length ≤ fuel →
      ¬ HToken pw t → sub_handles_aux fuel pw t = t := by
  intro fuel
  induction fuel with
  | zero =>
    intro t pw _ _
    rfl
  | succ fuel ih =>
    intro t pw hlen hno
    match t with
    | [] => rfl
    | c :: cs =>
      rw [sub_handles_aux]
      cases hma : handle_match_at pw (c :: cs) with
      | some n => exact absurd (handle_match_at_sound hma) hno
      | none =>
        dsimp only
        have hno' : ¬ HToken (is_word_char c) cs :=
          fun hx => hno (HToken_cons_intro hx)
        have hlen' : cs.length ≤ fuel := by
          simp only [List.length_cons] at hlen
          omega
        rw [ih cs (is_word_char c) hlen' hno']

/-! ### Digit-run lemmas for the digit pass -/

/-- The digit scrubber's head is the input's head or a marker bracket. -/
theorem sub_digits_head (fuel : Nat) (t : List Char) :
    (sub_digits_aux fuel t).head? = t.head? ∨
    (sub_digits_aux fuel t).head? = some '[' := by
  match fuel, t with
  | 0, t => exact Or.inl rfl
  | fuel + 1, [] => exact Or.inl rfl
  | fuel + 1, c :: cs =>
    rw [sub_digits_aux]
    by_cases hd : is_digit_char c = true
    · rw [if_pos hd]
      by_cases hlong : 5 ≤ (List.takeWhile is_digit_char (c :: cs)).length
      · rw [if_pos hlong]
        exact Or.inr (by simp [redacted])
      · rw [if_neg hlong]
        left
        rw [List.takeWhile_cons_of_pos hd]
        simp
    · rw [if_neg hd]
      exact Or.inl (by simp)

/-- An all-digit prefix of the digit scrubber's output is a prefix of its
input. -/
theorem digit_prefix_sub_digits :
    ∀ (fuel : Nat) (t m q : List Char), (∀ x ∈ m, is_digit_char x = true) →
      sub_digits_aux fuel t = m ++ q → ∃ q', t = m ++ q' := by
  intro fuel
  induction fuel with
  | zero => exact fun t m q _ h => ⟨q, h⟩
  | succ fuel ih =>
    intro t m q hm h
    match t with
    | [] =>
      rw [sub_digits_aux] at h
      rw [List.nil_eq, List.append_eq_nil] at h
      exact ⟨[], by simp [h.1]⟩
    | c :: cs =>
      rw [sub_digits_aux] at h
      by_cases hd : is_digit_char c = true
      · rw [if_pos hd] at h
        by_cases hlong : 5 ≤ (List.takeWhile is_digit_char (c :: cs)).length
        · rw [if_pos hlong] at h
          cases m with
          | nil => exact ⟨c :: cs, rfl⟩
          | cons m0 m' =>
            have hm0 : m0 = '[' := by
              have := congrArg List.head? h
              simpa [redacted] using this.symm
            have hdig := hm m0 (by simp)
            rw [hm0] at hdig
            cases hdig
        · rw [if_neg hlong] at h
          rcases List.append_eq_append_iff.mp h with ⟨a', hA1, hA2⟩ |
            ⟨m', hB1, hB2⟩
          · cases ha' : a' with
            | nil =>
              subst ha'
              rw [List.append_nil] at hA1
              exact ⟨List.dropWhile is_digit_char (c :: cs),
                by rw [hA1, List.takeWhile_append_dropWhile]⟩
            | cons a0 a'' =>
              exfalso
              have ha0d := hm a0 (by rw [hA1, ha']; simp)
              have hhd : (sub_digits_aux fuel
                  (List.dropWhile is_digit_char (c :: cs))).head? = some a0 := by
                rw [hA2, ha']
                simp
              rcases sub_digits_head fuel
                  (List.dropWhile is_digit_char (c :: cs)) with hh | hh
              · rw [hh] at hhd
                have := List.head?_dropWhile_not is_digit_char (c :: cs)
                rw [hhd] at this
                simp only [Option.all_some] at this
                rw [ha0d] at this
                cases this
              · rw [hh] at hhd
                have : a0 = '[' := by simpa using hhd.symm
                rw [this] at ha0d
                cases ha0d
          · refine ⟨m' ++ List.dropWhile is_digit_char (c :: cs), ?_⟩
            conv_lhs => rw [← @List.takeWhile_append_dropWhile _ is_digit_char (c :: cs)]
            rw [hB1]
            simp
      · rw [if_neg hd] at h
        cases m with
        | nil => exact ⟨c :: cs, rfl⟩
        | cons m0 m' =>
          rw [List.cons_append] at h
          have hc0 : c = m0 := (List.cons.injEq _ _ _ _ ▸ h).1
          have hdig := hm m0 (by simp)
          rw [← hc0] at hdig
          obtain ⟨q', hq'⟩ := ih cs m' q (fun x hx => hm x (by simp [hx]))
            ((List.cons.injEq _ _ _ _ ▸ h).2)
          exact ⟨q', by rw [hc0, List.cons_append, ← hq']⟩

/-- The marker contains no digit. -/
theorem redacted_no_digit : ∀ x ∈ redacted, is_digit_char x = false := by
  decide

/-- A digit run in a tail is a digit run. -/
theorem run5_cons {c : Char} {cs : List Char} (h : has_digit_run5 cs) :
    has_digit_run5 (c :: cs) := by
  obtain ⟨pre, run, post, ht, hlen, hd⟩ := h
  exact ⟨c :: pre, run, post, by rw [ht]; simp, hlen, hd⟩

/-- A digit run in a drop is a digit run. -/
theorem run5_drop {l : List Char} {n : Nat} (h : has_digit_run5 (l.drop n)) :
    has_digit_run5 l := by
  obtain ⟨pre, run, post, ht, hlen, hd⟩ := h
  refine ⟨l.take n ++ pre, run, post, ?_, hlen, hd⟩
  conv_lhs => rw [← List.take_append_drop n l]
  rw [ht]
  simp

/-- Splitting a digit run over an append whose right part does not start
with a digit. -/
theorem run5_append_cases {a b : List Char}
    (hb : ∀ x, b.head? = some x → is_digit_char x = false)
    (h : has_digit_run5 (a ++ b)) :
    has_digit_run5 a ∨ has_digit_run5 b := by
  obtain ⟨pre, run, post, ht, hlen, hd⟩ := h
  rcases append_three_decomp a b pre run post ht with
    ⟨q, hq⟩ | ⟨pre_b, _, hpb2⟩ | ⟨m1, m2, hm, hm1ne, hm2ne, _, hbb⟩
  · exact Or.inl ⟨pre, run, q, hq, hlen, hd⟩
  · exact Or.inr ⟨pre_b, run, post, hpb2, hlen, hd⟩
  · exfalso
    cases hm2 : m2 with
    | nil => exact hm2ne hm2
    | cons y ys =>
      have hyd : is_digit_char y = true := hd y (by rw [hm, hm2]; simp)
      have := hb y (by rw [hbb, hm2]; simp)
      rw [hyd] at this
      cases this

/-- Splitting a digit run over a marker on the left. -/
theorem run5_marker_cases {b : List Char}
    (h : has_digit_run5 (redacted ++ b)) : has_digit_run5 b := by
  obtain ⟨pre, run, post, ht, hlen, hd⟩ := h
  rcases append_three_decomp redacted b pre run post ht with
    ⟨q, hq⟩ | ⟨pre_b, _, hpb2⟩ | ⟨m1, m2, hm, hm1ne, hm2ne, ha, hbb⟩
  · exfalso
    match run, hlen with
    | x :: run', _ =>
      have hx : x ∈ redacted := by rw [hq]; simp
      have := redacted_no_digit x hx
      rw [hd x (by simp)] at this
      cases this
  · exact ⟨pre_b, run, post, hpb2, hlen, hd⟩
  · exfalso
    cases hm1' : m1 with
    | nil => exact hm1ne hm1'
    | cons z zs =>
      have hz1 : z ∈ redacted := by rw [ha, hm1']; simp
      have hz2 : is_digit_char z = true := hd z (by rw [hm, hm1']; simp)
      have := redacted_no_digit z hz1
      rw [hz2] at this
      cases this

/-- No five-digit run survives the digit pass. -/
theorem no_run5_sub_digits :
    ∀ (fuel : Nat) (t : List Char), t.length ≤ fuel →
      ¬ has_digit_run5 (sub_digits_aux fuel t) := by
  intro fuel
  induction fuel with
  | zero =>
    intro t hlen h
    have ht : t = [] := List.length_eq_zero.mp (Nat.le_zero.mp hlen)
    subst ht
    obtain ⟨x, hx, _⟩ := has_digit_run5_mem h
    cases hx
  | succ fuel ih =>
    intro t hlen h
    match t with
    | [] =>
      obtain ⟨x, hx, _⟩ := has_digit_run5_mem h
      rw [sub_digits_aux] at hx
      cases hx
    | c :: cs =>
      rw [sub_digits_aux] at h
      by_cases hdc : is_digit_char c = true
      · rw [if_pos hdc] at h
        have hrest : (List.dropWhile is_digit_char (c :: cs)).length ≤ fuel := by
          have h1 : (List.dropWhile is_digit_char (c :: cs)).length ≤ cs.length := by
            rw [List.dropWhile_cons_of_pos hdc]
            exact (List.dropWhile_sublist _).length_le
          simp only [List.length_cons] at hlen
          omega
        by_cases hlong : 5 ≤ (List.takeWhile is_digit_char (c :: cs)).length
        · rw [if_pos hlong] at h
          exact ih _ hrest (run5_marker_cases h)
        · rw [if_neg hlong] at h
          have hbh : ∀ x, (sub_digits_aux fuel
              (List.dropWhile is_digit_char (c :: cs))).head? = some x →
              is_digit_char x = false := by
            intro x hx
            rcases sub_digits_head fuel
                (List.dropWhile is_digit_char (c :: cs)) with hh | hh
            · rw [hh] at hx
              have := List.head?_dropWhile_not is_digit_char (c :: cs)
              rw [hx] at this
              simpa using this
            · rw [hh] at hx
              have : x = '[' := by simpa using hx.symm
              rw [this]
              rfl
          rcases run5_append_cases hbh h with hleft | hright
          · obtain ⟨pre, run, post, ht, hrlen, hrd⟩ := hleft
            have : 5 ≤ (List.takeWhile is_digit_char (c :: cs)).length := by
              rw [ht]
              simp only [List.length_append, hrlen]
              omega
            exact hlong this
          · exact ih _ hrest hright
      · rw [if_neg hdc] at h
        obtain ⟨pre, run, post, ht, hrlen, hrd⟩ := h
        cases pre with
        | nil =>
          match run, hrlen with
          | x :: run', _ =>
            rw [List.nil_append, List.cons_append, List.cons.injEq] at ht
            rw [← ht.1] at hrd
            have := hrd c (by simp)
            rw [this] at hdc
            exact hdc rfl
        | cons p pre' =>
          rw [List.cons_append, List.cons_append, List.cons.injEq] at ht
          have hlen' : cs.length ≤ fuel := by
            simp only [List.length_cons] at hlen
            omega
          exact ih cs hlen' ⟨pre', run, post, ht.2, hrlen, hrd⟩

/-- A digit is a word character. -/
theorem digit_imp_word {x : Char} (h : is_digit_char x = true) :
    is_word_char x = true := by
  simp [is_word_char, h]

/-- The handle pass creates no five-digit run. -/
theorem run5_preserved_sub_handles :
    ∀ (fuel : Nat) (t : List Char) (pw : Bool),
      ¬ has_digit_run5 t → ¬ has_digit_run5 (sub_handles_aux fuel pw t) := by
  intro fuel
  induction fuel with
  | zero => exact fun t pw hno => hno
  | succ fuel ih =>
    intro t pw hno h
    match t with
    | [] =>
      obtain ⟨x, hx, _⟩ := has_digit_run5_mem h
      rw [sub_handles_aux] at hx
      cases hx
    | c :: cs =>
      rw [sub_handles_aux] at h
      cases hma : handle_match_at pw (c :: cs) with
      | some n =>
        rw [hma] at h
        dsimp only at h
        have hrest : ¬ has_digit_run5 ((c :: cs).drop n) :=
          fun hr => hno (run5_drop hr)
        exact ih _ true hrest (run5_marker_cases h)
      | none =>
        rw [hma] at h
        dsimp only at h
        have hno_cs : ¬ has_digit_run5 cs := fun hr => hno (run5_cons hr)
        obtain ⟨pre, run, post, ht, hlen, hd⟩ := h
        cases pre with
        | nil =>
          cases run with
          | nil => simp at hlen
          | cons r0 run' =>
            rw [List.nil_append, List.cons_append, List.cons.injEq] at ht
            have hdigs : ∀ x ∈ run', handle_class x = true ∨ x = '@' :=
              fun x hx => Or.inl (word_imp_handle (digit_imp_word
                (hd x (by simp [hx]))))
            obtain ⟨q', hq'⟩ := class_prefix_sub_handles fuel
              (is_word_char c) cs run' post hdigs ht.2
            refine hno ⟨[], c :: run', q', by rw [hq']; simp, ?_, ?_⟩
            · have : (r0 :: run').length = 5 := hlen
              simp only [List.length_cons] at this ⊢
              omega
            · intro x hx
              rcases List.mem_cons.mp hx with hx0 | hx'
              · rw [hx0, ht.1]
                exact hd r0 (by simp)
              · exact hd x (by simp [hx'])
        | cons p pre' =>
          rw [List.cons_append, List.cons_append, List.cons.injEq] at ht
          exact ih cs (is_word_char c) hno_cs ⟨pre', run, post, ht.2, hlen, hd⟩

/-- The digit pass is the identity on texts without a five-digit run. -/
theorem sub_digits_id :
    ∀ (fuel : Nat) (t : List Char), t.length ≤ fuel →
      ¬ has_digit_run5 t → sub_digits_aux fuel t = t := by
  intro fuel
  induction fuel with
  | zero =>
    intro t _ _
    rfl
  | succ fuel ih =>
    intro t hlen hno
    match t with
    | [] => rfl
    | c :: cs =>
      rw [sub_digits_aux]
      by_cases hd : is_digit_char c = true
      · rw [if_pos hd]
        by_cases hlong : 5 ≤ (List.takeWhile is_digit_char (c :: cs)).length
        · exfalso
          apply hno
          refine ⟨[], (List.takeWhile is_digit_char (c :: cs)).take 5,
            (List.takeWhile is_digit_char (c :: cs)).drop 5 ++
              List.dropWhile is_digit_char (c :: cs), ?_, ?_, ?_⟩
          · rw [List.nil_append, ← List.append_assoc, List.take_append_drop,
              List.takeWhile_append_dropWhile]
          · rw [List.length_take]
            omega
          · intro x hx
            exact List.mem_takeWhile_imp (List.mem_of_mem_take hx)
        · rw [if_neg hlong]
          have hnorest : ¬ has_digit_run5
              (List.dropWhile is_digit_char (c :: cs)) := by
            intro hr
            rw [← drop_takeWhile_length is_digit_char (c :: cs)] at hr
            exact hno (run5_drop hr)
          have hrlen : (List.dropWhile is_digit_char (c :: cs)).length ≤ fuel := by
            have h1 : (List.dropWhile is_digit_char (c :: cs)).length ≤
                cs.length := by
              rw [List.dropWhile_cons_of_pos hd]
              exact (List.dropWhile_sublist _).length_le
            simp only [List.length_cons] at hlen
            omega
          rw [ih _ hrlen hnorest, List.takeWhile_append_dropWhile]
      · rw [if_neg hd]
        have hno_cs : ¬ has_digit_run5 cs := fun hr => hno (run5_cons hr)
        have hlen' : cs.length ≤ fuel := by
          simp only [List.length_cons] at hlen
          omega
        rw [ih cs hlen' hno_cs]

/-- After the digit pass and the handle pass, no five-digit run remains. -/
theorem scrub_tail_no_run5 (l : List Char) :
    ¬ has_digit_run5 (sub_handles false (sub_digits l)) :=
  run5_preserved_sub_handles (sub_digits l).length (sub_digits l) false
    (no_run5_sub_digits l.length l le_rfl)

/-- After the handle pass, no handle token remains. -/
theorem scrub_tail_no_htoken (l : List Char) :
    ¬ HToken false (sub_handles false (sub_digits l)) :=
  no_htoken_sub_handles (sub_digits l).length (sub_digits l) false le_rfl

/-- Re-running the digit pass on pass-2-then-3 output changes nothing. -/
theorem scrub_tail_digits_id (l : List Char) :
    sub_digits (sub_handles false (sub_digits l)) =
      sub_handles false (sub_digits l) :=
  sub_digits_id _ _ le_rfl (scrub_tail_no_run5 l)

/-- Re-running the handle pass on pass-2-then-3 output changes nothing. -/
theorem scrub_tail_handles_id (l : List Char) :
    sub_handles false (sub_handles false (sub_digits l)) =
      sub_handles false (sub_digits l) :=
  sub_handles_id _ _ false le_rfl (scrub_tail_no_htoken l)

/-- C10 counterexample: `_scrub_pii` is not idempotent.  The digit pass can
expose an email-shaped token ("a%@b.co12345" becomes "a%@b.co[REDACTED]",
whose prefix matches the email pattern on a second scrub, since `%` is in
the email local class but not in the handle class). -/
theorem scrub_pii_not_idempotent :
    scrub_pii (scrub_pii "a%@b.co12345") ≠ scrub_pii "a%@b.co12345" := by
  decide

/-- C10 (amended): `_scrub_pii` is idempotent in its last two passes — on
any already-scrubbed string the digit pass and the handle pass change
nothing, because the marker "[REDACTED]" contains no digit and no token
survives those passes.  Only the email pass (whose local class admits `%`,
which the handle pass does not redact) can fire again. -/
theorem scrub_pii_partial_idempotent (s : String) :
    String.mk (sub_digits (scrub_pii s).data) = scrub_pii s ∧
    String.mk (sub_handles false (scrub_pii s).data) = scrub_pii s := by
  constructor
  · exact congrArg String.mk (scrub_tail_digits_id (sub_emails false s.data))
  · exact congrArg String.mk (scrub_tail_handles_id (sub_emails false s.data))

/-- A digit run after a non-digit head lies in the tail. -/
theorem run5_cons_elim {c : Char} {l : List Char}
    (hc : is_digit_char c = false) (h : has_digit_run5 (c :: l)) :
    has_digit_run5 l := by
  obtain ⟨pre, run, post, ht, hlen, hd⟩ := h
  cases pre with
  | nil =>
    cases run with
    | nil => simp at hlen
    | cons r0 run' =>
      rw [List.nil_append, List.cons_append, List.cons.injEq] at ht
      have := hd r0 (by simp)
      rw [← ht.1, hc] at this
      cases this
  | cons p pre' =>
    rw [List.cons_append, List.cons_append, List.cons.injEq] at ht
    exact ⟨pre', run, post, ht.2, hlen, hd⟩

/-- The character list of a space-join step. -/
theorem join_space_data_cons (s s2 : String) (ss : List String) :
    (join_space (s :: s2 :: ss)).data =
      s.data ++ ' ' :: (join_space (s2 :: ss)).data := by
  show (s ++ " " ++ join_space (s2 :: ss)).data = _
  rw [String.data_append, String.data_append, List.append_assoc]
  rfl

/-- A space-join of run-free strings is run-free. -/
theorem join_space_no_run5 :
    ∀ l : List String, (∀ s ∈ l, ¬ has_digit_run5 s.data) →
      ¬ has_digit_run5 (join_space l).data := by
  intro l
  induction l with
  | nil =>
    intro _ h
    obtain ⟨x, hx, _⟩ := has_digit_run5_mem h
    cases hx
  | cons s ss ih =>
    cases ss with
    | nil =>
      intro hall h
      exact hall s (by simp) h
    | cons s2 ss' =>
      intro hall h
      rw [join_space_data_cons] at h
      have hsep : ∀ x, (' ' :: (join_space (s2 :: ss')).data).head? = some x →
          is_digit_char x = false := by
        intro x hx
        have hx' : x = ' ' := by simpa using hx.symm
        rw [hx']
        rfl
      rcases run5_append_cases hsep h with hL | hR
      · exact hall s (by simp) hL
      · exact ih (fun t ht => hall t (by simp [ht]))
          (run5_cons_elim (by decide) hR)

/-- A space-join of handle-token-free strings is handle-token-free. -/
theorem join_space_no_htoken :
    ∀ l : List String, (∀ s ∈ l, ¬ HToken false s.data) →
      ¬ HToken false (join_space l).data := by
  intro l
  induction l with
  | nil =>
    intro _ h
    have := HToken_mem_at h
    cases this
  | cons s ss ih =>
    cases ss with
    | nil =>
      intro hall h
      exact hall s (by simp) h
    | cons s2 ss' =>
      intro hall h
      rw [join_space_data_cons] at h
      have hsep : ∀ x, (' ' :: (join_space (s2 :: ss')).data).head? = some x →
          handle_class x = false ∧ x ≠ '@' := by
        intro x hx
        have hx' : x = ' ' := by simpa using hx.symm
        rw [hx']
        exact ⟨rfl, by decide⟩
      rcases HToken_append_cases (Or.inl hsep) h with hL | hR
      · exact hall s (by simp) hL
      · have h2 := HToken_cons_elim (by decide) hR
        have hw : is_word_char ' ' = false := by decide
        rw [hw] at h2
        exact ih (fun t ht => hall t (by simp [ht])) h2

/-- Membership in a fold whose step only keeps or appends `P`-elements. -/
theorem foldl_mem_of_step {α : Type} (P : String → Prop)
    (f : List String → α → List String)
    (hf : ∀ acc a x, x ∈ f acc a → x ∈ acc ∨ P x) :
    ∀ (l : List α) (acc : List String) (x : String),
      x ∈ l.foldl f acc → x ∈ acc ∨ P x := by
  intro l
  induction l with
  | nil => exact fun acc x hx => Or.inl hx
  | cons a l ih =>
    intro acc x hx
    rcases ih (f acc a) x hx with h | h
    · exact hf acc a x h
    · exact Or.inr h

/-- Every sentence assembled into the summary went through the scrubber. -/
theorem explain_summary_mem (search : String → List Int)
    (chunks : List String) (reason_code : String) :
    ∀ x ∈ explain_summary search chunks reason_code,
      ∃ t, x = scrub_pii t := by
  intro x hx
  rw [explain_summary] at hx
  dsimp only at hx
  have hinner : ∀ (chunk : String) (acc : List String) (y : String),
      y ∈ (extract_relevant_sentences chunk
          (word_tokens (code_to_query reason_code))).foldl
        (fun acc2 s =>
          if ! (scrub_pii s).data.isEmpty && ! acc2.contains (scrub_pii s) then
            acc2 ++ [scrub_pii s]
          else acc2) acc →
      y ∈ acc ∨ ∃ t, y = scrub_pii t := by
    intro chunk acc y hy
    refine foldl_mem_of_step (fun z => ∃ t, z = scrub_pii t) _ ?_ _ acc y hy
    intro acc2 s z hz
    by_cases hcond : (! (scrub_pii s).data.isEmpty &&
        ! acc2.contains (scrub_pii s)) = true
    · rw [if_pos hcond] at hz
      rcases List.mem_append.mp hz with h | h
      · exact Or.inl h
      · exact Or.inr ⟨s, by simpa using h⟩
    · rw [if_neg hcond] at hz
      exact Or.inl hz
  have houter := foldl_mem_of_step (fun z => ∃ t, z = scrub_pii t)
    (fun acc chunk =>
      (extract_relevant_sentences chunk
          (word_tokens (code_to_query reason_code))).foldl
        (fun acc2 s =>
          if ! (scrub_pii s).data.isEmpty && ! acc2.contains (scrub_pii s) then
            acc2 ++ [scrub_pii s]
          else acc2) acc)
    (fun acc a y hy => hinner a acc y hy) _ [] x hx
  rcases houter with h | h
  · cases h
  · exact h

/-- The scrubber's output has no five-digit run. -/
theorem scrub_pii_no_run5 (t : String) :
    ¬ has_digit_run5 (scrub_pii t).data :=
  scrub_tail_no_run5 (sub_emails false t.data)

/-- The scrubber's output has no handle token. -/
theorem scrub_pii_no_htoken (t : String) :
    ¬ HToken false (scrub_pii t).data :=
  scrub_tail_no_htoken (sub_emails false t.data)

/-- The explanation body has no five-digit run. -/
theorem explain_body_no_run5 (search : String → List Int)
    (chunks : List String) (reason_code : String) :
    ¬ has_digit_run5 (explain_body search chunks reason_code).data := by
  rw [explain_body]
  by_cases h : (explain_summary search chunks reason_code).isEmpty
  · rw [if_pos h]
    intro hr
    obtain ⟨x, hx, hd⟩ := has_digit_run5_mem hr
    have hall : ∀ y ∈ ("No relevant guidance found in the knowledge index." :
        String).data, is_digit_char y = false := by decide
    rw [hall x hx] at hd
    cases hd
  · rw [if_neg h]
    refine join_space_no_run5 _ ?_
    intro s hs
    obtain ⟨t, rfl⟩ := explain_summary_mem search chunks reason_code s hs
    exact scrub_pii_no_run5 t

/-- The explanation body has no handle token. -/
theorem explain_body_no_htoken (search : String → List Int)
    (chunks : List String) (reason_code : String) :
    ¬ HToken false (explain_body search chunks reason_code).data := by
  rw [explain_body]
  by_cases h : (explain_summary search chunks reason_code).isEmpty
  · rw [if_pos h]
    intro hr
    have hat : '@' ∉ ("No relevant guidance found in the knowledge index." :
        String).data := by decide
    exact hat (HToken_mem_at hr)
  · rw [if_neg h]
    refine join_space_no_htoken _ ?_
    intro s hs
    obtain ⟨t, rfl⟩ := explain_summary_mem search chunks reason_code s hs
    exact scrub_pii_no_htoken t

/-- C8: every sentence assembled into the explanation body has passed
through `_scrub_pii`, and for every reason code on which
`explain_decision` returns, the returned text is the fixed template around
the body, which contains no digit run of length five or more and no
`local@domain`-shaped handle token.  (Amended: an email-shaped token can
remain — see the counterexample — because the digit pass can expose an
email-shaped token that the handle pass does not redact when its local
part uses `%`.) -/
theorem explain_body_scrubbed (search : String → List Int)
    (chunks : List String) (reason_code : String) (out : String)
    (h : explain_decision search chunks reason_code = Except.ok out) :
    out = "Explanation for reason code " ++ squote ++ reason_code ++
      squote ++ ":\n" ++ "Summary: " ++
      explain_body search chunks reason_code ++ "\n" ++ behavior_line ∧
    (∀ x ∈ explain_summary search chunks reason_code,
      ∃ t, x = scrub_pii t) ∧
    ¬ has_digit_run5 (explain_body search chunks reason_code).data ∧
    ¬ HToken false (explain_body search chunks reason_code).data := by
  refine ⟨?_, explain_summary_mem search chunks reason_code,
    explain_body_no_run5 search chunks reason_code,
    explain_body_no_htoken search chunks reason_code⟩
  rw [explain_decision] at h
  by_cases hrc : reason_code = ""
  · rw [if_pos hrc] at h
    cases h
  · rw [if_neg hrc] at h
    injection h with h2
    exact h2.symm

/-- Witness for C8: a concrete call, with the returned-output hypothesis
discharged, yields a run-free and handle-free body. -/
theorem explain_body_scrubbed_witness :
    ¬ has_digit_run5 (explain_body (fun _ => []) [] "F").data ∧
    ¬ HToken false (explain_body (fun _ => []) [] "F").data := by
  have h := explain_body_scrubbed (fun _ => []) [] "F"
    ("Explanation for reason code " ++ squote ++ "F" ++ squote ++ ":\n" ++
      "Summary: " ++ explain_body (fun _ => []) [] "F" ++ "\n" ++
      behavior_line) rfl
  exact ⟨h.2.2.1, h.2.2.2⟩

/-- C8 counterexample: the returned explanation can contain an
email-shaped token.  On a seeded PII-bearing chunk the digit pass turns
"a%@b.co12345" into "a%@b.co[REDACTED]", whose prefix "a%@b.co" is an
email-shaped token (`%` is in the email local class but outside the handle
class, so the handle pass leaves it), and it reaches the returned text. -/
theorem explain_email_token_counterexample :
    ∃ out, explain_decision (fun _ => [0])
        ["Contact a%@b.co12345 for fraud guidance."] "FRAUD_SIGNAL" =
      Except.ok out ∧ EToken out.data := by
  refine ⟨"Explanation for reason code " ++ squote ++ "FRAUD_SIGNAL" ++
    squote ++ ":\nSummary: Contact a%@b.co[REDACTED] for fraud guidance.\n" ++
    behavior_line, rfl, ?_⟩
  refine ⟨("Explanation for reason code " ++ squote ++ "FRAUD_SIGNAL" ++
      squote ++ ":\nSummary: Contact ").data, 'a', ['%'], ['b'], ['c', 'o'],
    ("[REDACTED] for fraud guidance.\n" ++ behavior_line).data,
    by decide, by decide, by decide, by decide, by decide, by decide,
    by decide, by decide, by decide, ?_⟩
  intro x hx
  have hh : (("[REDACTED] for fraud guidance.\n" ++ behavior_line).data).head? =
      some '[' := by decide
  rw [hh] at hx
  have hx' : x = '[' := by simpa using hx.symm
  rw [hx']
  rfl
